import Mathlib

/-!
Verification development for the OntologyCrawler class pipeline
(`class_pipeline.py`): a shallow embedding of the ontology-import resolver,
the local hierarchy path extractor, the remote (BioPortal) hierarchy crawler
and the crawl orchestrator, together with theorems settling the behavioural
claims about them.

Conventions of the embedding:
* rdflib `Graph` is a finite set of (subject, predicate, object) triples.
* SPARQL queries are translated to the set comprehensions they denote; where
  rdflib row order is implementation-defined (set iteration, result rows),
  a canonical sorted order is used, and this is noted at each such place.
* Network fetching (rdflib `parse` of an import target, BioPortal queries) is
  modelled by a finite table describing what each remote source returns.
* Recursive procedures are embedded with an explicit fuel parameter; `none`
  means the fuel ran out (a model artifact; sufficiency of a concrete fuel
  bound is proved separately).
* Python exceptions are modelled with `Except`/error values.
-/

namespace OntologyCrawler

/-- A node identifier (URI); rdflib compares them by string value. -/
abbrev URI := String

/-- One RDF (subject, predicate, object) fact. -/
structure Triple where
  s : URI
  p : URI
  o : URI
deriving DecidableEq

/-- An rdflib `Graph`: a set of triples (duplicate-free, order irrelevant). -/
abbrev Graph := Finset Triple

/-- Full URI of `rdf:type` (the `a` keyword in the SPARQL queries). -/
def rdf_type : URI := "http://www.w3.org/1999/02/22-rdf-syntax-ns#type"

/-- Full URI of `owl:Ontology`. -/
def owl_Ontology : URI := "http://www.w3.org/2002/07/owl#Ontology"

/-- Full URI of `owl:imports`. -/
def owl_imports : URI := "http://www.w3.org/2002/07/owl#imports"

/-- Full URI of `rdfs:subClassOf`. -/
def rdfs_subClassOf : URI := "http://www.w3.org/2000/01/rdf-schema#subClassOf"

/-- Full URI of `owl:equivalentClass`. -/
def owl_equivalentClass : URI := "http://www.w3.org/2002/07/owl#equivalentClass"

/-- Python runtime errors that the pipeline code can raise. -/
inductive PyError where
  /-- Python `UnboundLocalError`: a local name referenced before assignment
      (raised by `return superclasses, subclasses` when a direction flag is
      off and the corresponding variable was never assigned). -/
  | unboundLocal (n : String)
  /-- Python `ValueError` from unpacking a collection that does not have
      exactly three elements as a `(s, p, o)` triple. -/
  | valueError
  /-- Python `IndexError`: `row[0]` on a zero-column result row. -/
  | indexError
  /-- The `Exception("Exhausted format list. Failing quickly.")` raised by
      the resolver when every serialization format failed for a target. -/
  | exhaustedFormats
deriving DecidableEq

/-- Decidable equality of `Except` results (for evaluating concrete runs). -/
instance instDecidableEqExcept {ε α : Type} [DecidableEq ε] [DecidableEq α] :
    DecidableEq (Except ε α)
  | Except.ok a, Except.ok b =>
    if h : a = b then isTrue (h ▸ rfl) else isFalse fun hh => h (Except.ok.inj hh)
  | Except.error e, Except.error f =>
    if h : e = f then isTrue (h ▸ rfl) else isFalse fun hh => h (Except.error.inj hh)
  | Except.ok _, Except.error _ => isFalse fun hh => Except.noConfusion hh
  | Except.error _, Except.ok _ => isFalse fun hh => Except.noConfusion hh

/-- Code-point comparison of char lists: a kernel-computable total order used
to give implementation-defined iteration orders a deterministic model. -/
def charListLe : List Char → List Char → Bool
  | [], _ => true
  | _ :: _, [] => false
  | a :: as, b :: bs =>
    if a.toNat < b.toNat then true
    else if b.toNat < a.toNat then false
    else charListLe as bs

/-- The induced total order on URIs. -/
def uriLe (a b : URI) : Prop := charListLe a.data b.data = true

instance : DecidableRel uriLe := fun _ _ => instDecidableEqBool _ _

instance : IsTotal URI uriLe := ⟨by
  suffices h : ∀ as bs, charListLe as bs = true ∨ charListLe bs as = true by
    intro a b
    exact h a.data b.data
  intro as
  induction as with
  | nil => intro bs; left; rfl
  | cons a as ih =>
    intro bs
    cases bs with
    | nil => right; rfl
    | cons b bs =>
      simp only [charListLe]
      rcases Nat.lt_trichotomy a.toNat b.toNat with h | h | h
      · left; simp [h]
      · have h2 : ¬ a.toNat < b.toNat := by omega
        have h3 : ¬ b.toNat < a.toNat := by omega
        rcases ih bs with h4 | h4
        · left; simp [h2, h3, h4]
        · right; simp [h2, h3, h4]
      · right; simp [h]⟩

instance : IsTrans URI uriLe := ⟨by
  suffices h : ∀ as bs cs, charListLe as bs = true → charListLe bs cs = true →
      charListLe as cs = true by
    intro a b c hab hbc
    exact h a.data b.data c.data hab hbc
  intro as
  induction as with
  | nil => intro bs cs _ _; rfl
  | cons a as ih =>
    intro bs cs hab hbc
    cases bs with
    | nil => simp [charListLe] at hab
    | cons b bs =>
      cases cs with
      | nil => simp [charListLe] at hbc
      | cons c cs =>
        simp only [charListLe] at hab hbc ⊢
        split_ifs at hab hbc ⊢ <;>
          first
            | rfl
            | omega
            | exact hab
            | exact hbc
            | exact ih bs cs hab hbc⟩

instance : IsAntisymm URI uriLe := ⟨by
  suffices h : ∀ as bs, charListLe as bs = true → charListLe bs as = true → as = bs by
    intro a b hab hba
    exact congrArg String.mk (h a.data b.data hab hba)
  intro as
  induction as with
  | nil =>
    intro bs h1 h2
    cases bs with
    | nil => rfl
    | cons b bs => simp [charListLe] at h2
  | cons a as ih =>
    intro bs h1 h2
    cases bs with
    | nil => simp [charListLe] at h1
    | cons b bs =>
      simp only [charListLe] at h1 h2
      split_ifs at h1 h2 <;> first
        | exact Bool.noConfusion h1
        | exact Bool.noConfusion h2
        | (exfalso; omega)
        | (have hn : a.toNat = b.toNat := by omega
           have hab : a = b := Char.ext (UInt32.ext hn)
           rw [hab, ih bs h1 h2])⟩

/-- Canonical (sorted by `uriLe`) listing of a finite set of URIs, used
wherever rdflib/CPython iteration order is implementation-defined. -/
def sortURIs (s : Finset URI) : List URI :=
  Quot.liftOn s.val (fun l => List.insertionSort uriLe l) fun a b hab =>
    List.eq_of_perm_of_sorted
      ((List.perm_insertionSort uriLe a).trans
        ((hab : List.Perm a b).trans (List.perm_insertionSort uriLe b).symm))
      (List.sorted_insertionSort uriLe a)
      (List.sorted_insertionSort uriLe b)

/-! ## Local hierarchy path extractor (`extract_paths`) -/

/-- Embeds the SPARQL one-hop query of `__find_superclasses`:
`SELECT ?class WHERE { <seed> (rdfs:subClassOf|owl:equivalentClass) ?class }`.
The property path predicates are hardcoded in the query string; the
`properties` parameter of `extract_paths` is not interpolated (its TODO on
line 291 of the source notes this). -/
def directSupers (g : Graph) (x : URI) : Finset URI :=
  (g.filter fun t => t.s = x ∧ (t.p = rdfs_subClassOf ∨ t.p = owl_equivalentClass)).image Triple.o

/-- Embeds the SPARQL one-hop query of `__find_subclasses`:
`SELECT ?sub WHERE { ?sub (rdfs:subClassOf|owl:equivalentClass) <seed> }`. -/
def directSubs (g : Graph) (x : URI) : Finset URI :=
  (g.filter fun t => t.o = x ∧ (t.p = rdfs_subClassOf ∨ t.p = owl_equivalentClass)).image Triple.s

/-- One round of the SPARQL arbitrary-length property-path evaluation:
keep the nodes found so far and add every node one further hop away. -/
def closStep (f : URI → Finset URI) (s : Finset URI) : Finset URI :=
  s ∪ s.biUnion f

/-- n rounds of `closStep` (the ALP evaluation of `path+` reaches a fixpoint;
iterating `card` many times is enough, as proved below). -/
def closIter (f : URI → Finset URI) (n : Nat) (s : Finset URI) : Finset URI :=
  (closStep f)^[n] s

/-- Embeds `__find_superclasses`: the `%s` in the query is `""` when
`up_shallow` (one hop) and `"+"` otherwise (transitive closure). -/
def find_superclasses (graph : Graph) (seed : URI) (up_shallow : Bool) : Finset URI :=
  if up_shallow then directSupers graph seed
  else closIter (directSupers graph) graph.card (directSupers graph seed)

/-- Embeds `__find_subclasses`, symmetric to `find_superclasses`. -/
def find_subclasses (graph : Graph) (seed : URI) (down_shallow : Bool) : Finset URI :=
  if down_shallow then directSubs graph seed
  else closIter (directSubs graph) graph.card (directSubs graph seed)

/-- Embeds `extract_paths(seed, graph, properties, verbose=False, down, up,
shallow, up_shallow, down_shallow)`.  The `verbose` branch is reporting-only
output and is not modelled.  When a direction flag is off, the corresponding
local variable is never assigned and the final
`return superclasses, subclasses` raises `UnboundLocalError` (evaluating
`superclasses` first). -/
def extract_paths (seed : URI) (graph : Graph) (properties : List URI)
    (down : Bool) (up : Bool) (shallow : Option Bool)
    (up_shallow : Bool) (down_shallow : Bool) :
    Except PyError (Finset URI × Finset URI) :=
  let _ := properties
  let ush := match shallow with | some b => b | none => up_shallow
  let dsh := match shallow with | some b => b | none => down_shallow
  let sup? : Option (Finset URI) :=
    if up then some (find_superclasses graph seed ush) else none
  let sub? : Option (Finset URI) :=
    if down then some (find_subclasses graph seed dsh) else none
  match sup?, sub? with
  | some a, some b => Except.ok (a, b)
  | none, _ => Except.error (PyError.unboundLocal "superclasses")
  | some _, none => Except.error (PyError.unboundLocal "subclasses")

/-- One directed edge of the hierarchy the extractor walks: the pattern
`a (rdfs:subClassOf|owl:equivalentClass) b` holds in `g`. -/
def hierEdge (g : Graph) (a b : URI) : Prop :=
  ∃ t ∈ g, t.s = a ∧ t.o = b ∧ (t.p = rdfs_subClassOf ∨ t.p = owl_equivalentClass)

/-- Modelled from the claim wording, for refinement comparison only: the
direct one-hop ancestors of `x` along edges whose predicate is in the
supplied filter `P` (what C4 says `extract_paths` computes from its
`properties` argument). -/
def specDirectAncestors (P : List URI) (g : Graph) (x : URI) : Finset URI :=
  (g.filter fun t => t.s = x ∧ t.p ∈ P).image Triple.o

/-! ## Ontology import resolver (`retrieve_ontologies`) -/

/-- The rdflib serialization format identifiers tried by the resolver. -/
inductive Format where
  | xml | n3 | nt | trix | rdfa
deriving DecidableEq

/-- The source's `FORMATS = ['xml','n3','nt','trix','rdfa']`, i.e.
RDF/XML, N3, N-Triples, TriX, RDFa in this fixed priority order. -/
def FORMATS : List Format := [Format.xml, Format.n3, Format.nt, Format.trix, Format.rdfa]

/-- The fetchable web of ontology documents: for each URI, the formats under
which `Graph().parse(uri, format=...)` succeeds and the graph each yields. -/
abbrev Web := List (URI × List (Format × Graph))

/-- One parse attempt: `Graph().parse(str(uri), format=f)`, `none` meaning the
attempt raised. -/
def parseDoc (web : Web) (u : URI) (f : Format) : Option Graph :=
  match web.find? (fun e => decide (e.1 = u)) with
  | none => none
  | some e =>
    match e.2.find? (fun fg => decide (fg.1 = f)) with
    | none => none
    | some fg => some fg.2

/-- Record one more attempted format in the attempt log: extend the format
list of the (unique) entry for target `t`. -/
def logFormat (t : URI) (f : Format) : List (URI × List Format) → List (URI × List Format)
  | [] => []
  | (u, fs) :: rest =>
    if u = t then (u, fs ++ [f]) :: rest else (u, fs) :: logFormat t f rest

/-- The mutable state threaded through `_import_ontologies`: the accumulating
result graph `gout`, the `seen` set, and (instrumentation) the log of parse
attempts, one entry per target with the formats tried for it. -/
structure ResolveState where
  gout : Graph
  seen : Finset URI
  attempts : List (URI × List Format)
deriving DecidableEq

/-- Outcome of the recursive import loop: normal return, or the propagating
`Exception("Exhausted format list. Failing quickly.")`.  The state is kept in
the error case too so that the attempt log stays observable. -/
inductive ResolveResult where
  | ok (st : ResolveState)
  | err (st : ResolveState)
deriving DecidableEq

/-- State carried by either outcome. -/
def ResolveResult.state : ResolveResult → ResolveState
  | ResolveResult.ok st => st
  | ResolveResult.err st => st

/-- True when the import loop returned normally (no propagating exception). -/
def ResolveResult.isOk : ResolveResult → Bool
  | ResolveResult.ok _ => true
  | ResolveResult.err _ => false

/-- Embeds the import query
`SELECT ?ont WHERE { [] a owl:Ontology ; owl:imports ?ont . }`:
objects of `owl:imports` edges whose subject is typed `owl:Ontology`.
Row order is rdflib-internal and duplicate rows are inert under the seen
guard, so the deduplicated sorted list is used. -/
def importsOf (g : Graph) : List URI :=
  sortURIs ((g.filter fun t => t.p = owl_imports ∧
      ∃ t2 ∈ g, t2.s = t.s ∧ t2.p = rdf_type ∧ t2.o = owl_Ontology).image Triple.o)

mutual
/-- Embeds the `for row in imports:` loop of `_import_ontologies`: for each
target not in `seen`, add it to `seen`, open an attempt-log entry for it and
run the format loop (`tryRead`); a propagating exception from the format loop
(possible only when the target itself exhausted every format under
error=None) unwinds past the remaining siblings; on normal return continue
with the siblings from the returned state.  `fuel` bounds the total number of
steps; `none` = fuel ran out. -/
def goImports (web : Web) (error : Option String) :
    Nat → List URI → ResolveState → Option ResolveResult
  | 0, _, _ => none
  | _ + 1, [], st => some (ResolveResult.ok st)
  | fuel + 1, t :: rest, st =>
    if t ∈ st.seen then
      goImports web error fuel rest st
    else
      let st1 : ResolveState :=
        { st with seen := insert t st.seen, attempts := st.attempts ++ [(t, [])] }
      match tryRead web error fuel t FORMATS false st1 with
      | none => none
      | some (ResolveResult.err stE) => some (ResolveResult.err stE)
      | some (ResolveResult.ok st2) => goImports web error fuel rest st2

/-- Embeds the `for form in FORMATS: try ... except Exception: pass` loop for
one target `t`, with `read_success` the source's flag of the same name.  Each
iteration logs the format as attempted; if the parse fails the loop falls
through to the next format.  The `try` block also contains `gout = gout + gin`,
`read_success = True` and the recursive `_import_ontologies(gin)` call, so on
a successful parse the document is unioned into `gout` and the recursion runs
INSIDE the try: an exception raised by the recursion is swallowed by the
`except ... pass` and the loop resumes with the NEXT format from the state at
the raise (the nonlocal `gout`/`seen` mutations persist), with `read_success`
already true; if instead the recursion returns normally the loop `break`s.
After the loop, a target whose every parse failed raises the exhausted-format
exception under error=None and falls through under any other policy. -/
def tryRead (web : Web) (error : Option String) :
    Nat → URI → List Format → Bool → ResolveState → Option ResolveResult
  | 0, _, _, _, _ => none
  | _ + 1, _, [], read_success, st =>
    if read_success then some (ResolveResult.ok st)
    else
      match error with
      | none => some (ResolveResult.err st)
      | some _ => some (ResolveResult.ok st)
  | fuel + 1, t, f :: fs, read_success, st =>
    let st0 : ResolveState := { st with attempts := logFormat t f st.attempts }
    match parseDoc web t f with
    | none => tryRead web error fuel t fs read_success st0
    | some gin =>
      let st3 : ResolveState := { st0 with gout := st0.gout ∪ gin }
      match goImports web error fuel (importsOf gin) st3 with
      | none => none
      | some (ResolveResult.err stE) => tryRead web error fuel t fs true stE
      | some (ResolveResult.ok st4) => some (ResolveResult.ok st4)
end

/-- The set of URIs the web can serve at all (used for the fuel bound). -/
def webKeys (web : Web) : Finset URI := (web.map Prod.fst).toFinset

/-- An upper bound on how many import rows any fetchable document can yield
(used for the fuel bound). -/
def maxImportsLen (web : Web) : Nat :=
  web.foldr (fun e acc => e.2.foldr (fun fg acc2 => Nat.max (importsOf fg.2).length acc2) acc) 0

/-- Fuel budget charged per pending import-list element: one loop step plus
one step per format of a target the web cannot serve at all. -/
def elemCost : Nat := 1 + FORMATS.length

/-- Fuel budget charged per still-unseen fetchable document: its format loop
plus, per format, a recursive descent over at most `maxImportsLen` rows. -/
def keyCost (web : Web) : Nat :=
  1 + FORMATS.length * (1 + maxImportsLen web * elemCost)

/-- A fuel amount sufficient for `goImports` to complete on `web` from a
pending list `ts` (proved below). -/
def enoughFuel (web : Web) (ts : List URI) : Nat :=
  ts.length * elemCost + (webKeys web).card * keyCost web + 1

/-- Well-formedness of the attempt log: targets are pairwise distinct, every
logged target is in the seen set, and each entry's attempted-format list is a
prefix of the fixed priority order `FORMATS`. -/
def AttemptInv (st : ResolveState) : Prop :=
  (st.attempts.map Prod.fst).Nodup ∧
  (∀ u ∈ st.attempts.map Prod.fst, u ∈ st.seen) ∧
  (∀ e ∈ st.attempts, ∃ k, k ≤ FORMATS.length ∧ e.2 = FORMATS.take k)

/-- Runs the import loop of `retrieve_ontologies(graph, error, ...)` from the
empty state and exposes the full final state (result graph, seen set and
attempt log). -/
def retrieve_ontologies_full (web : Web) (graph : Graph) (error : Option String)
    (fuel : Nat) : Option ResolveResult :=
  goImports web error fuel (importsOf graph) ⟨∅, ∅, []⟩

/-- Embeds `retrieve_ontologies(graph, error=None, inplace=True)`: returns
`graph + gout` when `inplace` and `gout` alone otherwise; a raised
exhausted-format exception propagates as an error. -/
def retrieve_ontologies (web : Web) (graph : Graph) (error : Option String)
    (inplace : Bool) (fuel : Nat) : Option (Except PyError Graph) :=
  match retrieve_ontologies_full web graph error fuel with
  | none => none
  | some (ResolveResult.err _) => some (Except.error PyError.exhaustedFormats)
  | some (ResolveResult.ok st) =>
    some (Except.ok (if inplace then graph ∪ st.gout else st.gout))

/-! ## Seed selection and orchestrator (`retrieve_crawl_paths`) -/

/-- A caller-supplied SPARQL SELECT query, modelled by its result rows on a
graph: one list of bound values per row (row length = number of projected
variables). -/
abbrev SeedQuery := Graph → List (List URI)

/-- Embeds `_retrieve_seed_classes(graph, query) = {row[0] for row in
graph.query(query)}`.  The docstring TODO in the source records that
validation of the number of projected variables is NOT implemented; the only
failure is Python `IndexError` from `row[0]` on a zero-column row. -/
def _retrieve_seed_classes (graph : Graph) (query : SeedQuery) :
    Except PyError (Finset URI) :=
  let rows := query graph
  if rows.all (fun r => !r.isEmpty) then
    Except.ok (rows.filterMap List.head?).toFinset
  else Except.error PyError.indexError

/-- Unpacking one of the node sets returned by `extract_paths` as an
`(s, p, o)` triple, which is what rdflib's `Graph.__iadd__` does to each
element of its iterable argument.  This raises `ValueError` unless the set
has exactly three elements; with exactly three, a pseudo-triple of its
elements in CPython set-iteration order (implementation-defined; modelled as
sorted order) is produced. -/
def setAsTriple (s : Finset URI) : Except PyError Triple :=
  match sortURIs s with
  | [a, b, c] => Except.ok ⟨a, b, c⟩
  | _ => Except.error PyError.valueError

/-- Embeds `entity_graph += extract_paths(...)`: rdflib `Graph.__iadd__`
iterates the PAIR of node sets returned by `extract_paths` and unpacks each
set as a triple (adding the first pseudo-triple before failing on the
second, as `addN` consumes its generator incrementally). -/
def graphIAddPair (entity : Graph) (pr : Finset URI × Finset URI) :
    Except PyError Graph :=
  match setAsTriple pr.1 with
  | Except.error e => Except.error e
  | Except.ok t1 =>
    match setAsTriple pr.2 with
    | Except.error e => Except.error e
    | Except.ok t2 => Except.ok (insert t2 (insert t1 entity))

/-- The `extract_params` keyword dictionary of `retrieve_crawl_paths`. -/
structure ExtractParams where
  up : Bool
  down : Bool
  up_shallow : Bool
  down_shallow : Bool
deriving DecidableEq

/-- The source's default
`{'up': True, 'down': True, 'up_shallow': False, 'down_shallow': False}`. -/
def defaultExtractParams : ExtractParams := ⟨true, true, false, false⟩

/-- The `for s in seed:` loop of `retrieve_crawl_paths` (Python set iteration
order is implementation-defined; the seeds are processed in sorted order). -/
def crawlSeedLoop (combined : Graph) (properties : List URI) (params : ExtractParams) :
    List URI → Graph → Except PyError Graph
  | [], entity => Except.ok entity
  | s :: rest, entity =>
    match extract_paths s combined properties params.down params.up none
        params.up_shallow params.down_shallow with
    | Except.error e => Except.error e
    | Except.ok pr =>
      match graphIAddPair entity pr with
      | Except.error e => Except.error e
      | Except.ok entity2 => crawlSeedLoop combined properties params rest entity2

/-- Embeds the orchestrator `retrieve_crawl_paths(graph, seed_query,
properties, expand_ontologies, verbose=False, inplace, extract_params)`:
collect seeds, optionally resolve the import closure (with `error=None` and
`inplace=False`), run `extract_paths` per seed accumulating into
`entity_graph`, and return `graph + entity_graph` when `inplace` else
`entity_graph`. -/
def retrieve_crawl_paths (web : Web) (fuel : Nat) (graph : Graph)
    (seed_query : SeedQuery) (properties : List URI) (expand_ontologies : Bool)
    (inplace : Bool) (extract_params : ExtractParams) :
    Option (Except PyError Graph) :=
  match _retrieve_seed_classes graph seed_query with
  | Except.error e => some (Except.error e)
  | Except.ok seed =>
    let ont : Option (Except PyError Graph) :=
      if expand_ontologies then retrieve_ontologies web graph none false fuel
      else some (Except.ok (∅ : Graph))
    match ont with
    | none => none
    | some (Except.error e) => some (Except.error e)
    | some (Except.ok ontology_graph) =>
      match crawlSeedLoop (graph ∪ ontology_graph) properties extract_params
          (sortURIs seed) ∅ with
      | Except.error e => some (Except.error e)
      | Except.ok entity_graph =>
        some (Except.ok (if inplace then graph ∪ entity_graph else entity_graph))

/-! ## Remote (BioPortal) hierarchy crawler -/

/-- The module-level `PREDICATES` list: `[RDFS.subClassOf, OWL.equivalentClass]`. -/
def PREDICATES : List URI := [rdfs_subClassOf, owl_equivalentClass]

/-- Embeds `_query_next_level(k)`: the remote SPARQL query
`SELECT DISTINCT ?pred ?kn WHERE { <k> ?pred ?kn . FILTER(...) }` followed by
grouping into a dictionary mapping each parent `kn` to its connecting
predicates.  The remote endpoint is modelled by the finite graph `remote`;
dictionary key order is implementation-defined and modelled as sorted. -/
def parentsOf (remote : Graph) (k : URI) : List (URI × List URI) :=
  (sortURIs ((remote.filter fun t => t.s = k ∧ t.p ∈ PREDICATES).image Triple.o)).map
    fun kn =>
      (kn, sortURIs ((remote.filter fun t => t.s = k ∧ t.o = kn ∧ t.p ∈ PREDICATES).image Triple.p))

/-- The module-level mutable crawl state: the `seen` set, the accumulating
`bioportal_graph`, and (instrumentation) the log of remote queries issued —
`(node, true)` for a superclass query, `(node, false)` for a subclass query. -/
structure BPState where
  seen : Finset URI
  bioportal_graph : Graph
  queries : List (URI × Bool)
deriving DecidableEq

mutual
/-- Embeds `find_bioportal_superclasses(k, i)`: return immediately when `k`
is in `seen`; otherwise add `k` to `seen`, issue the remote parent query, add
the `(k, pred, parent)` triples and recurse into each parent.  `fuel` bounds
recursion depth; `none` = fuel ran out. -/
def bpSup (remote : Graph) : Nat → URI → BPState → Option BPState
  | 0, _, _ => none
  | fuel + 1, k, st =>
    if k ∈ st.seen then some st
    else
      let st1 : BPState :=
        { st with seen := insert k st.seen, queries := st.queries ++ [(k, true)] }
      bpSupParents remote k fuel (parentsOf remote k) st1

/-- The `for k_n in parents.keys():` loop body of
`find_bioportal_superclasses`: add the connecting triples for one parent,
recurse into it, continue with the remaining parents. -/
def bpSupParents (remote : Graph) (k : URI) :
    Nat → List (URI × List URI) → BPState → Option BPState
  | 0, _, _ => none
  | _ + 1, [], st => some st
  | fuel + 1, (kn, preds) :: rest, st =>
    let st1 : BPState :=
      { st with bioportal_graph :=
          st.bioportal_graph ∪ (preds.map fun p => (⟨k, p, kn⟩ : Triple)).toFinset }
    match bpSup remote fuel kn st1 with
    | none => none
    | some st2 => bpSupParents remote k fuel rest st2
end

/-- Embeds `find_bioportal_subclasses(k)`: one unconditional remote one-hop
query for the children of `k` (note: no `seen` check and no `seen` update),
whose `(child, pred, k)` rows are added to `bioportal_graph`. -/
def find_bioportal_subclasses (remote : Graph) (k : URI) (st : BPState) : BPState :=
  let st1 : BPState := { st with queries := st.queries ++ [(k, false)] }
  { st1 with bioportal_graph :=
      st1.bioportal_graph ∪ (remote.filter fun t => t.o = k ∧ t.p ∈ PREDICATES) }

/-- The node identifiers of the superclass queries in a query log. -/
def supTargets (qs : List (URI × Bool)) : List URI :=
  (qs.filter fun q => q.2).map Prod.fst

/-! ## Graph-object store (for the no-mutation claim)

rdflib graphs are mutable objects; to make "the input graph is never
mutated" a real statement, graph objects are given identities: the store is
the list of all graphs allocated so far and a graph is an index into it.
`Graph()` and `g1 + g2` allocate, queries read, and `g += ...` writes. -/

/-- The store of allocated graph objects. -/
abbrev Heap := List Graph

/-- Read the triples of graph object `i`. -/
def Heap.read (h : Heap) (i : Nat) : Graph := h.getD i ∅

/-- Allocate a fresh graph object. -/
def Heap.alloc (h : Heap) (g : Graph) : Heap × Nat := (h ++ [g], h.length)

/-- Overwrite the triples of graph object `i` (in-place mutation). -/
def Heap.write (h : Heap) (i : Nat) (g : Graph) : Heap := h.set i g

/-- Store-level embedding of `retrieve_ontologies`: the input graph `gid` is
only queried; `gout` and every intermediate `gout + gin` are freshly
allocated objects (their final triples are computed by the pure `goImports`),
and the returned object is a fresh allocation.  No write to any pre-existing
object occurs. -/
def retrieve_ontologies_h (web : Web) (error : Option String) (inplace : Bool)
    (fuel : Nat) (h : Heap) (gid : Nat) : Heap × Option (Except PyError Nat) :=
  match goImports web error fuel (importsOf (h.read gid)) ⟨∅, ∅, []⟩ with
  | none => (h, none)
  | some (ResolveResult.err _) => (h, some (Except.error PyError.exhaustedFormats))
  | some (ResolveResult.ok st) =>
    let hr := h.alloc (if inplace then h.read gid ∪ st.gout else st.gout)
    (hr.1, some (Except.ok hr.2))

/-- Store-level `for s in seed:` loop: per seed, `extract_paths` only reads;
`entity_graph += ...` writes to the entity object `eid` (adding the first
pseudo-triple before failing on the second, as `addN` consumes its generator
incrementally). -/
def crawlSeedLoopH (combined : Graph) (properties : List URI) (params : ExtractParams) :
    List URI → Heap → Nat → Heap × Option PyError
  | [], h, _ => (h, none)
  | s :: rest, h, eid =>
    match extract_paths s combined properties params.down params.up none
        params.up_shallow params.down_shallow with
    | Except.error e => (h, some e)
    | Except.ok pr =>
      match setAsTriple pr.1 with
      | Except.error e => (h, some e)
      | Except.ok t1 =>
        let h1 := h.write eid (insert t1 (h.read eid))
        match setAsTriple pr.2 with
        | Except.error e => (h1, some e)
        | Except.ok t2 =>
          let h2 := h1.write eid (insert t2 (h1.read eid))
          crawlSeedLoopH combined properties params rest h2 eid

/-- Store-level embedding of `retrieve_crawl_paths`: the input graph `gid` is
read by the seed query and unioned into fresh objects; the only written
object is the freshly allocated `entity_graph`. -/
def retrieve_crawl_paths_h (web : Web) (fuel : Nat) (h : Heap) (gid : Nat)
    (seed_query : SeedQuery) (properties : List URI) (expand_ontologies : Bool)
    (inplace : Bool) (params : ExtractParams) : Heap × Option (Except PyError Nat) :=
  match _retrieve_seed_classes (h.read gid) seed_query with
  | Except.error e => (h, some (Except.error e))
  | Except.ok seed =>
    let step2 : Heap × Option (Except PyError Nat) :=
      if expand_ontologies then retrieve_ontologies_h web none false fuel h gid
      else
        let ha := h.alloc ∅
        (ha.1, some (Except.ok ha.2))
    match step2 with
    | (h1, none) => (h1, none)
    | (h1, some (Except.error e)) => (h1, some (Except.error e))
    | (h1, some (Except.ok oid)) =>
      let he := h1.alloc ∅
      let h2 := he.1
      let eid := he.2
      let combined := h2.read gid ∪ h2.read oid
      match crawlSeedLoopH combined properties params (sortURIs seed) h2 eid with
      | (h3, some e) => (h3, some (Except.error e))
      | (h3, none) =>
        if inplace then
          let hr := h3.alloc (h3.read gid ∪ h3.read eid)
          (hr.1, some (Except.ok hr.2))
        else (h3, some (Except.ok eid))

/-! ## Concrete demonstration inputs -/

/-- Ontology document at `urn:A`: declares itself an ontology and imports
`urn:B`. -/
def docA : Graph :=
  {⟨"urn:docA", rdf_type, owl_Ontology⟩, ⟨"urn:docA", owl_imports, "urn:B"⟩}

/-- Ontology document at `urn:B`: declares itself an ontology and imports
`urn:A` (closing the two-cycle A imports B imports A). -/
def docB : Graph :=
  {⟨"urn:docB", rdf_type, owl_Ontology⟩, ⟨"urn:docB", owl_imports, "urn:A"⟩}

/-- The two-cycle web: `urn:A` and `urn:B` both parse as RDF/XML. -/
def cycleWeb : Web := [("urn:A", [(Format.xml, docA)]), ("urn:B", [(Format.xml, docB)])]

/-- Root graph declaring an ontology that imports `urn:A`. -/
def rootCycle : Graph :=
  {⟨"urn:root", rdf_type, owl_Ontology⟩, ⟨"urn:root", owl_imports, "urn:A"⟩}

/-- Document at `urn:good`: an ontology importing the unparseable `urn:bad`
a second time. -/
def docGood : Graph :=
  {⟨"urn:gd", rdf_type, owl_Ontology⟩, ⟨"urn:gd", owl_imports, "urn:bad"⟩}

/-- Web where only `urn:good` is fetchable; `urn:bad` fails in every format. -/
def badGoodWeb : Web := [("urn:good", [(Format.xml, docGood)])]

/-- Root graph importing both `urn:bad` and `urn:good` (processed in sorted
order: `urn:bad` first). -/
def rootBadGood : Graph :=
  {⟨"urn:root", rdf_type, owl_Ontology⟩,
   ⟨"urn:root", owl_imports, "urn:bad"⟩,
   ⟨"urn:root", owl_imports, "urn:good"⟩}

/-- Root graph importing ONLY `urn:good` (so the unparseable `urn:bad` is
reached one level down, through the parsed document at `urn:good`). -/
def rootNestedOnly : Graph :=
  {⟨"urn:root", rdf_type, owl_Ontology⟩, ⟨"urn:root", owl_imports, "urn:good"⟩}

/-- Web where `urn:u` parses only as N3 (so the RDF/XML attempt fails first). -/
def n3OnlyWeb : Web := [("urn:u", [(Format.n3, (∅ : Graph))])]

/-- A one-edge hierarchy graph: `urn:A rdfs:subClassOf urn:B`. -/
def oneEdgeGraph : Graph := {⟨"urn:A", rdfs_subClassOf, "urn:B"⟩}

/-- A seed query whose rows each bind exactly one variable, selecting `urn:A`. -/
def oneVarQuery : SeedQuery := fun _ => [["urn:A"]]

/-- A seed query projecting TWO variables per result row. -/
def twoVarQuery : SeedQuery := fun _ => [["urn:a", "urn:b"]]

/-! ## Lemmas: fixpoint evaluation of the arbitrary-length property path -/

theorem closIter_succ (f : URI → Finset URI) (n : Nat) (s : Finset URI) :
    closIter f (n + 1) s = closStep f (closIter f n s) :=
  Function.iterate_succ_apply' (closStep f) n s

theorem subset_closStep (f : URI → Finset URI) (s : Finset URI) : s ⊆ closStep f s :=
  Finset.subset_union_left

theorem closIter_mono (f : URI → Finset URI) (s : Finset URI) {m n : Nat} (h : m ≤ n) :
    closIter f m s ⊆ closIter f n s := by
  obtain ⟨d, rfl⟩ := Nat.exists_eq_add_of_le h
  clear h
  induction d with
  | zero => exact fun x hx => hx
  | succ d ih =>
    rw [← Nat.add_assoc, closIter_succ]
    exact fun x hx => subset_closStep f _ (ih hx)

theorem closIter_subset (f : URI → Finset URI) (U : Finset URI) (hf : ∀ x, f x ⊆ U)
    (s : Finset URI) (hs : s ⊆ U) : ∀ n, closIter f n s ⊆ U := by
  intro n
  induction n with
  | zero => exact hs
  | succ n ih =>
    rw [closIter_succ]
    exact Finset.union_subset ih (Finset.biUnion_subset.mpr fun x _ => hf x)

theorem closIter_stab (f : URI → Finset URI) (U : Finset URI) (hf : ∀ x, f x ⊆ U)
    (s : Finset URI) (hs : s ⊆ U) :
    ∃ k, k ≤ U.card ∧ closStep f (closIter f k s) = closIter f k s := by
  by_contra hcon
  push_neg at hcon
  have hgrow : ∀ k, k ≤ U.card + 1 → k ≤ (closIter f k s).card := by
    intro k
    induction k with
    | zero => intro _; exact Nat.zero_le _
    | succ k ih =>
      intro hk
      have hk1 : k ≤ U.card := Nat.succ_le_succ_iff.mp hk
      have h1 := ih (Nat.le_succ_of_le hk1)
      have hne := hcon k hk1
      have hss : closIter f k s ⊂ closIter f (k + 1) s := by
        rw [closIter_succ]
        exact Finset.ssubset_iff_subset_ne.mpr
          ⟨subset_closStep f _, fun heq => hne heq.symm⟩
      have := Finset.card_lt_card hss
      omega
  have h2 := hgrow (U.card + 1) le_rfl
  have h3 : (closIter f (U.card + 1) s).card ≤ U.card :=
    Finset.card_le_card (closIter_subset f U hf s hs _)
  omega

theorem closIter_fixed_after (f : URI → Finset URI) (s : Finset URI) (k : Nat)
    (hfix : closStep f (closIter f k s) = closIter f k s) :
    ∀ j, k ≤ j → closIter f j s = closIter f k s := by
  intro j hj
  obtain ⟨d, rfl⟩ := Nat.exists_eq_add_of_le hj
  show (closStep f)^[k + d] s = _
  rw [Nat.add_comm, Function.iterate_add_apply]
  exact Function.iterate_fixed hfix d

theorem mem_closIter_sound (f : URI → Finset URI) (s : Finset URI) :
    ∀ n c, c ∈ closIter f n s →
      ∃ b ∈ s, Relation.ReflTransGen (fun a b => b ∈ f a) b c := by
  intro n
  induction n with
  | zero => intro c hc; exact ⟨c, hc, Relation.ReflTransGen.refl⟩
  | succ n ih =>
    intro c hc
    rw [closIter_succ] at hc
    rcases Finset.mem_union.mp hc with h | h
    · exact ih c h
    · rcases Finset.mem_biUnion.mp h with ⟨b, hb, hcb⟩
      obtain ⟨b0, hb0, hchain⟩ := ih b hb
      exact ⟨b0, hb0, hchain.tail hcb⟩

theorem mem_closIter_complete (f : URI → Finset URI) (s : Finset URI) {b c : URI}
    (hb : b ∈ s) (h : Relation.ReflTransGen (fun a b => b ∈ f a) b c) :
    ∃ m, c ∈ closIter f m s := by
  induction h with
  | refl => exact ⟨0, hb⟩
  | tail _ hdc ih =>
    obtain ⟨m, hm⟩ := ih
    refine ⟨m + 1, ?_⟩
    rw [closIter_succ]
    exact Finset.mem_union_right _ (Finset.mem_biUnion.mpr ⟨_, hm, hdc⟩)

theorem mem_closIter_iff (f : URI → Finset URI) (U : Finset URI) (hf : ∀ x, f x ⊆ U)
    (s : Finset URI) (hs : s ⊆ U) {n : Nat} (hn : U.card ≤ n) (c : URI) :
    c ∈ closIter f n s ↔
      ∃ b ∈ s, Relation.ReflTransGen (fun a b => b ∈ f a) b c := by
  constructor
  · exact mem_closIter_sound f s n c
  · rintro ⟨b, hb, hchain⟩
    obtain ⟨m, hm⟩ := mem_closIter_complete f s hb hchain
    obtain ⟨k, hk, hfix⟩ := closIter_stab f U hf s hs
    rcases le_or_lt m n with hmn | hnm
    · exact closIter_mono f s hmn hm
    · have h1 : closIter f m s = closIter f k s :=
        closIter_fixed_after f s k hfix m (le_trans (le_trans hk hn) (le_of_lt hnm))
      have h2 : closIter f n s = closIter f k s :=
        closIter_fixed_after f s k hfix n (le_trans hk hn)
      rw [h2, ← h1]
      exact hm

theorem directSupers_subset (g : Graph) (x : URI) :
    directSupers g x ⊆ g.image Triple.o :=
  Finset.image_subset_image (Finset.filter_subset _ g)

theorem hierEdge_iff (g : Graph) (a b : URI) :
    hierEdge g a b ↔ b ∈ directSupers g a := by
  unfold hierEdge directSupers
  simp only [Finset.mem_image, Finset.mem_filter]
  constructor
  · rintro ⟨t, ht, hs, ho, hp⟩; exact ⟨t, ⟨ht, hs, hp⟩, ho⟩
  · rintro ⟨t, ⟨ht, hs, hp⟩, ho⟩; exact ⟨t, ht, hs, ho, hp⟩

theorem mem_find_superclasses_shallow (g : Graph) (seed c : URI) :
    c ∈ find_superclasses g seed true ↔ hierEdge g seed c := by
  unfold find_superclasses
  rw [if_pos rfl]
  exact (hierEdge_iff g seed c).symm

theorem mem_find_superclasses_deep (g : Graph) (seed c : URI) :
    c ∈ find_superclasses g seed false ↔ Relation.TransGen (hierEdge g) seed c := by
  have hrel : (fun a b => b ∈ directSupers g a) = hierEdge g := by
    funext a b
    exact propext (hierEdge_iff g a b).symm
  unfold find_superclasses
  rw [if_neg Bool.false_ne_true]
  rw [mem_closIter_iff (directSupers g) (g.image Triple.o) (directSupers_subset g)
      (directSupers g seed) (directSupers_subset g seed) Finset.card_image_le c]
  rw [Relation.TransGen.head'_iff]
  constructor
  · rintro ⟨b, hb, hchain⟩
    refine ⟨b, (hierEdge_iff g seed b).mpr hb, ?_⟩
    rw [← hrel]
    exact hchain
  · rintro ⟨b, hedge, hchain⟩
    refine ⟨b, (hierEdge_iff g seed b).mp hedge, ?_⟩
    rw [hrel]
    exact hchain

/-! ## Lemmas: the import resolver loop -/

theorem goImports_zero (web : Web) (error : Option String) (ts : List URI)
    (st : ResolveState) : goImports web error 0 ts st = none := rfl

theorem goImports_nil (web : Web) (error : Option String) (fuel : Nat)
    (st : ResolveState) :
    goImports web error (fuel + 1) [] st = some (ResolveResult.ok st) := rfl

theorem goImports_cons_seen (web : Web) (error : Option String) (fuel : Nat)
    (t : URI) (rest : List URI) (st : ResolveState) (h : t ∈ st.seen) :
    goImports web error (fuel + 1) (t :: rest) st = goImports web error fuel rest st := by
  simp only [goImports, if_pos h]

theorem goImports_cons_open (web : Web) (error : Option String) (fuel : Nat)
    (t : URI) (rest : List URI) (st : ResolveState) (h : t ∉ st.seen) :
    goImports web error (fuel + 1) (t :: rest) st =
      match tryRead web error fuel t FORMATS false
          ⟨st.gout, insert t st.seen, st.attempts ++ [(t, [])]⟩ with
      | none => none
      | some (ResolveResult.err stE) => some (ResolveResult.err stE)
      | some (ResolveResult.ok st2) => goImports web error fuel rest st2 := by
  simp only [goImports, if_neg h]

theorem tryRead_zero (web : Web) (error : Option String) (t : URI)
    (fs : List Format) (rs : Bool) (st : ResolveState) :
    tryRead web error 0 t fs rs st = none := rfl

theorem tryRead_nil (web : Web) (error : Option String) (fuel : Nat) (t : URI)
    (rs : Bool) (st : ResolveState) :
    tryRead web error (fuel + 1) t [] rs st =
      (if rs then some (ResolveResult.ok st)
       else match error with
         | none => some (ResolveResult.err st)
         | some _ => some (ResolveResult.ok st)) := rfl

theorem tryRead_cons_fail (web : Web) (error : Option String) (fuel : Nat)
    (t : URI) (f : Format) (fs : List Format) (rs : Bool) (st : ResolveState)
    (hp : parseDoc web t f = none) :
    tryRead web error (fuel + 1) t (f :: fs) rs st =
      tryRead web error fuel t fs rs ⟨st.gout, st.seen, logFormat t f st.attempts⟩ := by
  simp only [tryRead, hp]

theorem tryRead_cons_parse (web : Web) (error : Option String) (fuel : Nat)
    (t : URI) (f : Format) (fs : List Format) (rs : Bool) (st : ResolveState)
    (gin : Graph) (hp : parseDoc web t f = some gin) :
    tryRead web error (fuel + 1) t (f :: fs) rs st =
      match goImports web error fuel (importsOf gin)
          ⟨st.gout ∪ gin, st.seen, logFormat t f st.attempts⟩ with
      | none => none
      | some (ResolveResult.err stE) => tryRead web error fuel t fs true stE
      | some (ResolveResult.ok st4) => some (ResolveResult.ok st4) := by
  simp only [tryRead, hp]

/-! ## Lemmas: the attempt log updater -/

theorem logFormat_map_fst (t : URI) (f : Format) :
    ∀ l : List (URI × List Format), (logFormat t f l).map Prod.fst = l.map Prod.fst := by
  intro l
  induction l with
  | nil => rfl
  | cons e rest ih =>
    obtain ⟨v, q⟩ := e
    by_cases hv : v = t
    · simp [logFormat, hv]
    · simp only [logFormat, if_neg hv, List.map_cons]
      rw [ih]

theorem logFormat_not_mem (t : URI) (f : Format) :
    ∀ l : List (URI × List Format), t ∉ l.map Prod.fst → logFormat t f l = l := by
  intro l
  induction l with
  | nil => intro _; rfl
  | cons e rest ih =>
    obtain ⟨v, q⟩ := e
    intro h
    simp only [List.map_cons, List.mem_cons] at h
    push_neg at h
    have hvt : ¬ v = t := fun hv => h.1 hv.symm
    simp only [logFormat, if_neg hvt]
    rw [ih h.2]

theorem logFormat_mem_ne (t : URI) (f : Format) (u : URI) (p : List Format)
    (hu : u ≠ t) :
    ∀ l : List (URI × List Format), (u, p) ∈ l → (u, p) ∈ logFormat t f l := by
  intro l
  induction l with
  | nil => intro h; cases h
  | cons e rest ih =>
    obtain ⟨v, q⟩ := e
    intro h
    by_cases hv : v = t
    · simp only [logFormat, if_pos hv]
      rcases List.mem_cons.mp h with heq | h
      · injection heq with h1 h2
        exact absurd (h1.symm ▸ hv) hu
      · exact List.mem_cons_of_mem _ h
    · simp only [logFormat, if_neg hv]
      rcases List.mem_cons.mp h with heq | h
      · rw [heq]
        exact List.mem_cons_self _ _
      · exact List.mem_cons_of_mem _ (ih h)

theorem logFormat_mem_update (t : URI) (f : Format) (p : List Format) :
    ∀ l : List (URI × List Format), (l.map Prod.fst).Nodup → (t, p) ∈ l →
      (t, p ++ [f]) ∈ logFormat t f l := by
  intro l
  induction l with
  | nil => intro _ h; cases h
  | cons e rest ih =>
    obtain ⟨v, q⟩ := e
    intro hnd h
    simp only [List.map_cons, List.nodup_cons] at hnd
    by_cases hv : v = t
    · simp only [logFormat, if_pos hv]
      rcases List.mem_cons.mp h with heq | h
      · injection heq with h1 h2
        subst h1
        subst h2
        exact List.mem_cons_self _ _
      · exfalso
        subst hv
        exact hnd.1 (List.mem_map.mpr ⟨(v, p), h, rfl⟩)
    · simp only [logFormat, if_neg hv]
      rcases List.mem_cons.mp h with heq | h
      · injection heq with h1 h2
        exact absurd h1.symm hv
      · exact List.mem_cons_of_mem _ (ih hnd.2 h)

theorem logFormat_mem_shape (t : URI) (f : Format) :
    ∀ (l : List (URI × List Format)) (e : URI × List Format), e ∈ logFormat t f l →
      e ∈ l ∨ ∃ p, (t, p) ∈ l ∧ e = (t, p ++ [f]) := by
  intro l
  induction l with
  | nil => intro e h; cases h
  | cons e0 rest ih =>
    obtain ⟨v, q⟩ := e0
    intro e h
    by_cases hv : v = t
    · simp only [logFormat, if_pos hv] at h
      rcases List.mem_cons.mp h with heq | h
      · subst hv
        exact Or.inr ⟨q, List.mem_cons_self _ _, heq⟩
      · exact Or.inl (List.mem_cons_of_mem _ h)
    · simp only [logFormat, if_neg hv] at h
      rcases List.mem_cons.mp h with heq | h
      · rw [heq]
        exact Or.inl (List.mem_cons_self _ _)
      · rcases ih e h with h1 | ⟨p, hp, he⟩
        · exact Or.inl (List.mem_cons_of_mem _ h1)
        · exact Or.inr ⟨p, List.mem_cons_of_mem _ hp, he⟩

theorem keys_nodup_val_unique (t : URI) (p q : List Format) :
    ∀ l : List (URI × List Format), (l.map Prod.fst).Nodup →
      (t, p) ∈ l → (t, q) ∈ l → p = q := by
  intro l
  induction l with
  | nil => intro _ h; cases h
  | cons e rest ih =>
    obtain ⟨v, r⟩ := e
    intro hnd hp hq
    simp only [List.map_cons, List.nodup_cons] at hnd
    rcases List.mem_cons.mp hp with hep | hp
    · injection hep with h1 h2
      rcases List.mem_cons.mp hq with heq | hq
      · injection heq with h3 h4
        rw [h2, h4]
      · exfalso
        exact hnd.1 (h1 ▸ List.mem_map.mpr ⟨(t, q), hq, rfl⟩)
    · rcases List.mem_cons.mp hq with heq | hq
      · injection heq with h3 h4
        exfalso
        exact hnd.1 (h3 ▸ List.mem_map.mpr ⟨(t, p), hp, rfl⟩)
      · exact ih hnd.2 hp hq

theorem take_drop_step {α : Type} :
    ∀ (j : Nat) (l : List α) (f : α) (fs : List α), l.drop j = f :: fs →
      l.take (j + 1) = l.take j ++ [f] ∧ l.drop (j + 1) = fs := by
  intro j
  induction j with
  | zero =>
    intro l f fs h
    simp only [List.drop_zero] at h
    subst h
    exact ⟨rfl, rfl⟩
  | succ j ih =>
    intro l f fs h
    cases l with
    | nil => cases h
    | cons a l =>
      have h2 : l.drop j = f :: fs := h
      obtain ⟨ih1, ih2⟩ := ih l f fs h2
      constructor
      · show a :: l.take (j + 1) = a :: l.take j ++ [f]
        rw [ih1]
        rfl
      · exact ih2

/-! ## Lemmas: the import loop invariant -/

/-- The attempt-log well-formedness does not depend on the result graph. -/
theorem attemptInv_gout (g1 g2 : Graph) (seen : Finset URI)
    (l : List (URI × List Format)) (h : AttemptInv ⟨g1, seen, l⟩) :
    AttemptInv ⟨g2, seen, l⟩ := h

/-- Opening a target (mark seen, append a fresh empty log entry) preserves
log well-formedness. -/
theorem attemptInv_open (t : URI) (gout : Graph) (seen : Finset URI)
    (attempts : List (URI × List Format)) (hmem : t ∉ seen)
    (hI : AttemptInv ⟨gout, seen, attempts⟩) :
    AttemptInv ⟨gout, insert t seen, attempts ++ [(t, [])]⟩ := by
  obtain ⟨hnd, hsub, hshape⟩ := hI
  have htA : t ∉ attempts.map Prod.fst := fun htA => hmem (hsub t htA)
  refine ⟨?_, ?_, ?_⟩
  · show ((attempts ++ [(t, [])]).map Prod.fst).Nodup
    simp only [List.map_append, List.map_cons, List.map_nil]
    rw [List.nodup_append]
    refine ⟨hnd, by simp, ?_⟩
    intro u hu hu2
    have hut : u = t := by simpa using hu2
    exact htA (hut ▸ hu)
  · show ∀ u ∈ (attempts ++ [(t, [])]).map Prod.fst, u ∈ insert t seen
    intro u hu
    simp only [List.map_append, List.map_cons, List.map_nil] at hu
    rcases List.mem_append.mp hu with hu | hu
    · exact Finset.mem_insert_of_mem (hsub u hu)
    · have hut : u = t := by simpa using hu
      rw [hut]
      exact Finset.mem_insert_self t _
  · show ∀ e ∈ attempts ++ [(t, [])], ∃ k, k ≤ FORMATS.length ∧ e.2 = FORMATS.take k
    intro e he
    rcases List.mem_append.mp he with he | he
    · exact hshape e he
    · have het : e = (t, []) := by simpa using he
      exact ⟨0, Nat.zero_le _, by rw [het]; rfl⟩

/-- One format-loop step (logging the next format in priority order onto the
running target's prefix entry) preserves log well-formedness. -/
theorem attemptInv_step (t : URI) (f : Format) (j : Nat) (gout : Graph)
    (seen : Finset URI) (attempts : List (URI × List Format))
    (hstep : FORMATS.take (j + 1) = FORMATS.take j ++ [f])
    (hjlt : j < FORMATS.length)
    (hentry : (t, FORMATS.take j) ∈ attempts)
    (hI : AttemptInv ⟨gout, seen, attempts⟩) :
    AttemptInv ⟨gout, seen, logFormat t f attempts⟩ := by
  obtain ⟨hnd, hsub, hshape⟩ := hI
  refine ⟨?_, ?_, ?_⟩
  · show ((logFormat t f attempts).map Prod.fst).Nodup
    rw [logFormat_map_fst]
    exact hnd
  · show ∀ u ∈ (logFormat t f attempts).map Prod.fst, u ∈ seen
    intro u hu
    rw [logFormat_map_fst] at hu
    exact hsub u hu
  · show ∀ e ∈ logFormat t f attempts, ∃ k, k ≤ FORMATS.length ∧ e.2 = FORMATS.take k
    intro e he
    rcases logFormat_mem_shape t f attempts e he with he2 | ⟨p, hpmem, hpe⟩
    · exact hshape e he2
    · have hpq : p = FORMATS.take j :=
        keys_nodup_val_unique t p (FORMATS.take j) attempts hnd hpmem hentry
      exact ⟨j + 1, hjlt, by rw [hpe, hpq, ← hstep]⟩

/-- A nonempty remaining format suffix means the loop index is in range. -/
theorem drop_cons_lt (j : Nat) (f : Format) (fs : List Format)
    (h : FORMATS.drop j = f :: fs) : j < FORMATS.length := by
  by_contra hge
  push_neg at hge
  rw [List.drop_eq_nil_of_le hge] at h
  cases h

/-- Combined invariant of the import loop and the per-target format loop: the
seen set only grows; the log entry of an already-seen target other than the
format loop's own target is never modified (nested recursions only open and
extend entries for previously unseen targets); and log well-formedness
(`AttemptInv`: distinct targets, all seen, priority-prefix format lists) is
preserved, where the format loop runs at position `j` of the priority order
with its target's entry holding the first `j` formats. -/
theorem resolver_inv (web : Web) (error : Option String) :
    ∀ fuel,
      (∀ ts st res, goImports web error fuel ts st = some res →
        st.seen ⊆ res.state.seen ∧
        (∀ u p, u ∈ st.seen → (u, p) ∈ st.attempts → (u, p) ∈ res.state.attempts) ∧
        (AttemptInv st → AttemptInv res.state)) ∧
      (∀ t fs rs st res, tryRead web error fuel t fs rs st = some res →
        st.seen ⊆ res.state.seen ∧
        (∀ u p, u ∈ st.seen → u ≠ t → (u, p) ∈ st.attempts → (u, p) ∈ res.state.attempts) ∧
        (∀ j, t ∈ st.seen → fs = FORMATS.drop j → (t, FORMATS.take j) ∈ st.attempts →
          AttemptInv st → AttemptInv res.state)) := by
  intro fuel
  induction fuel with
  | zero =>
    exact ⟨fun ts st res h => Option.noConfusion h,
      fun t fs rs st res h => Option.noConfusion h⟩
  | succ fuel ih =>
    obtain ⟨ihG, ihT⟩ := ih
    constructor
    · intro ts st res h
      cases ts with
      | nil =>
        rw [goImports_nil] at h
        cases h
        exact ⟨fun x hx => hx, fun u p _ hp => hp, fun hI => hI⟩
      | cons t rest =>
        by_cases hmem : t ∈ st.seen
        · rw [goImports_cons_seen web error fuel t rest st hmem] at h
          exact ihG rest st res h
        · rw [goImports_cons_open web error fuel t rest st hmem] at h
          rcases hT : tryRead web error fuel t FORMATS false
              ⟨st.gout, insert t st.seen, st.attempts ++ [(t, [])]⟩ with _ | r
          · rw [hT] at h
            cases h
          · rw [hT] at h
            obtain ⟨hTmono, hTstab, hTinv⟩ := ihT t FORMATS false _ _ hT
            have hmono1 : st.seen ⊆ r.state.seen := fun x hx =>
              hTmono (Finset.mem_insert_of_mem hx)
            have hstab1 : ∀ u p, u ∈ st.seen → (u, p) ∈ st.attempts →
                (u, p) ∈ r.state.attempts := by
              intro u p hu hp
              exact hTstab u p (Finset.mem_insert_of_mem hu)
                (fun hut => hmem (hut ▸ hu)) (List.mem_append_left _ hp)
            have hinv1 : AttemptInv st → AttemptInv r.state := by
              intro hI
              refine hTinv 0 (Finset.mem_insert_self t _) rfl ?_ ?_
              · show (t, FORMATS.take 0) ∈ st.attempts ++ [(t, [])]
                simp
              · exact attemptInv_open t st.gout st.seen st.attempts hmem hI
            cases r with
            | err stE =>
              replace h : some (ResolveResult.err stE) = some res := h
              cases h
              exact ⟨hmono1, hstab1, hinv1⟩
            | ok st2 =>
              replace h : goImports web error fuel rest st2 = some res := h
              obtain ⟨hmono2, hstab2, hinv2⟩ := ihG rest st2 res h
              refine ⟨fun x hx => hmono2 (hmono1 hx), ?_, fun hI => hinv2 (hinv1 hI)⟩
              intro u p hu hp
              exact hstab2 u p (hmono1 hu) (hstab1 u p hu hp)
    · intro t fs rs st res h
      cases fs with
      | nil =>
        rw [tryRead_nil] at h
        cases rs with
        | false =>
          cases error with
          | none =>
            replace h : some (ResolveResult.err st) = some res := h
            cases h
            exact ⟨fun x hx => hx, fun u p _ _ hp => hp, fun _ _ _ _ hI => hI⟩
          | some s =>
            replace h : some (ResolveResult.ok st) = some res := h
            cases h
            exact ⟨fun x hx => hx, fun u p _ _ hp => hp, fun _ _ _ _ hI => hI⟩
        | true =>
          replace h : some (ResolveResult.ok st) = some res := h
          cases h
          exact ⟨fun x hx => hx, fun u p _ _ hp => hp, fun _ _ _ _ hI => hI⟩
      | cons f fs2 =>
        cases hp : parseDoc web t f with
        | none =>
          rw [tryRead_cons_fail web error fuel t f fs2 rs st hp] at h
          obtain ⟨hTmono, hTstab, hTinv⟩ := ihT t fs2 rs _ _ h
          refine ⟨hTmono, ?_, ?_⟩
          · intro u p hu hut hpmem
            exact hTstab u p hu hut (logFormat_mem_ne t f u p hut _ hpmem)
          · intro j ht hdrop hentry hI
            obtain ⟨hstep, hdrop2⟩ := take_drop_step j FORMATS f fs2 hdrop.symm
            have hjlt : j < FORMATS.length := drop_cons_lt j f fs2 hdrop.symm
            have hentry2 : (t, FORMATS.take (j + 1)) ∈ logFormat t f st.attempts := by
              rw [hstep]
              exact logFormat_mem_update t f (FORMATS.take j) st.attempts hI.1 hentry
            exact hTinv (j + 1) ht hdrop2.symm hentry2
              (attemptInv_step t f j st.gout st.seen st.attempts hstep hjlt hentry hI)
        | some gin =>
          rw [tryRead_cons_parse web error fuel t f fs2 rs st gin hp] at h
          rcases hN : goImports web error fuel (importsOf gin)
              ⟨st.gout ∪ gin, st.seen, logFormat t f st.attempts⟩ with _ | r1
          · rw [hN] at h
            cases h
          · rw [hN] at h
            obtain ⟨hNmono, hNstab, hNinv⟩ := ihG (importsOf gin) _ _ hN
            cases r1 with
            | ok st4 =>
              replace h : some (ResolveResult.ok st4) = some res := h
              cases h
              refine ⟨hNmono, ?_, ?_⟩
              · intro u p hu hut hpmem
                exact hNstab u p hu (logFormat_mem_ne t f u p hut _ hpmem)
              · intro j ht hdrop hentry hI
                obtain ⟨hstep, hdrop2⟩ := take_drop_step j FORMATS f fs2 hdrop.symm
                have hjlt : j < FORMATS.length := drop_cons_lt j f fs2 hdrop.symm
                exact hNinv (attemptInv_gout st.gout (st.gout ∪ gin) st.seen _
                  (attemptInv_step t f j st.gout st.seen st.attempts hstep hjlt hentry hI))
            | err stE =>
              replace h : tryRead web error fuel t fs2 true stE = some res := h
              obtain ⟨hRmono, hRstab, hRinv⟩ := ihT t fs2 true stE res h
              refine ⟨fun x hx => hRmono (hNmono hx), ?_, ?_⟩
              · intro u p hu hut hpmem
                exact hRstab u p (hNmono hu) hut
                  (hNstab u p hu (logFormat_mem_ne t f u p hut _ hpmem))
              · intro j ht hdrop hentry hI
                obtain ⟨hstep, hdrop2⟩ := take_drop_step j FORMATS f fs2 hdrop.symm
                have hjlt : j < FORMATS.length := drop_cons_lt j f fs2 hdrop.symm
                have hentry2 : (t, FORMATS.take (j + 1)) ∈ logFormat t f st.attempts := by
                  rw [hstep]
                  exact logFormat_mem_update t f (FORMATS.take j) st.attempts hI.1 hentry
                refine hRinv (j + 1) (hNmono ht) hdrop2.symm ?_
                  (hNinv (attemptInv_gout st.gout (st.gout ∪ gin) st.seen _
                    (attemptInv_step t f j st.gout st.seen st.attempts hstep hjlt hentry hI)))
                exact hNstab t (FORMATS.take (j + 1)) ht hentry2

/-- Under any non-None error policy the exhausted-format exception is never
raised: no run of either loop returns the error outcome. -/
theorem goImports_some_policy_ok (web : Web) (s : String) :
    ∀ fuel,
      (∀ ts st stE, goImports web (some s) fuel ts st ≠ some (ResolveResult.err stE)) ∧
      (∀ t fs rs st stE,
        tryRead web (some s) fuel t fs rs st ≠ some (ResolveResult.err stE)) := by
  intro fuel
  induction fuel with
  | zero =>
    exact ⟨fun _ _ _ h => Option.noConfusion h, fun _ _ _ _ _ h => Option.noConfusion h⟩
  | succ fuel ih =>
    obtain ⟨ihG, ihT⟩ := ih
    constructor
    · intro ts st stE h
      cases ts with
      | nil =>
        rw [goImports_nil] at h
        exact ResolveResult.noConfusion (Option.some.inj h)
      | cons t rest =>
        by_cases hmem : t ∈ st.seen
        · rw [goImports_cons_seen web (some s) fuel t rest st hmem] at h
          exact ihG rest st stE h
        · rw [goImports_cons_open web (some s) fuel t rest st hmem] at h
          rcases hT : tryRead web (some s) fuel t FORMATS false
              ⟨st.gout, insert t st.seen, st.attempts ++ [(t, [])]⟩ with _ | r
          · rw [hT] at h
            cases h
          · rw [hT] at h
            cases r with
            | err stE2 => exact ihT t FORMATS false _ stE2 hT
            | ok st2 =>
              replace h : goImports web (some s) fuel rest st2 =
                some (ResolveResult.err stE) := h
              exact ihG rest st2 stE h
    · intro t fs rs st stE h
      cases fs with
      | nil =>
        rw [tryRead_nil] at h
        cases rs with
        | false => exact ResolveResult.noConfusion (Option.some.inj h)
        | true => exact ResolveResult.noConfusion (Option.some.inj h)
      | cons f fs2 =>
        cases hp : parseDoc web t f with
        | none =>
          rw [tryRead_cons_fail web (some s) fuel t f fs2 rs st hp] at h
          exact ihT t fs2 rs _ stE h
        | some gin =>
          rw [tryRead_cons_parse web (some s) fuel t f fs2 rs st gin hp] at h
          rcases hN : goImports web (some s) fuel (importsOf gin)
              ⟨st.gout ∪ gin, st.seen, logFormat t f st.attempts⟩ with _ | r1
          · rw [hN] at h
            cases h
          · rw [hN] at h
            cases r1 with
            | err stE2 => exact ihG (importsOf gin) _ stE2 hN
            | ok st4 =>
              replace h : some (ResolveResult.ok st4) = some (ResolveResult.err stE) := h
              exact ResolveResult.noConfusion (Option.some.inj h)

theorem foldr_max_le_init :
    ∀ (l : List (Format × Graph)) (acc : Nat),
      acc ≤ l.foldr (fun fg acc2 => Nat.max (importsOf fg.2).length acc2) acc := by
  intro l
  induction l with
  | nil => intro acc; exact le_rfl
  | cons fg l ih =>
    intro acc
    exact le_trans (ih acc) (Nat.le_max_right _ _)

theorem mem_foldr_max :
    ∀ (l : List (Format × Graph)) (acc : Nat) (fg : Format × Graph), fg ∈ l →
      (importsOf fg.2).length ≤
        l.foldr (fun fg acc2 => Nat.max (importsOf fg.2).length acc2) acc := by
  intro l
  induction l with
  | nil => intro acc fg h; cases h
  | cons fg0 l ih =>
    intro acc fg h
    rcases List.mem_cons.mp h with rfl | h
    · exact Nat.le_max_left _ _
    · exact le_trans (ih acc fg h) (Nat.le_max_right _ _)

theorem mem_maxImportsLen :
    ∀ (web : Web) (e : URI × List (Format × Graph)) (fg : Format × Graph),
      e ∈ web → fg ∈ e.2 → (importsOf fg.2).length ≤ maxImportsLen web := by
  intro web
  induction web with
  | nil => intro e fg h; cases h
  | cons e0 web ih =>
    intro e fg he hfg
    rcases List.mem_cons.mp he with rfl | he
    · exact mem_foldr_max e.2 (maxImportsLen web) fg hfg
    · exact le_trans (ih e fg he hfg) (foldr_max_le_init e0.2 _)

/-- A successful parse means the target is fetchable (is a web key) and the
count of its import rows is within the global bound. -/
theorem parseDoc_some (web : Web) (u : URI) (f : Format) (g : Graph)
    (h : parseDoc web u f = some g) :
    u ∈ webKeys web ∧ (importsOf g).length ≤ maxImportsLen web := by
  unfold parseDoc at h
  cases hfind : web.find? (fun e => decide (e.1 = u)) with
  | none => rw [hfind] at h; cases h
  | some e =>
    rw [hfind] at h
    dsimp only at h
    cases hfind2 : e.2.find? (fun fg => decide (fg.1 = f)) with
    | none => rw [hfind2] at h; cases h
    | some fg =>
      rw [hfind2] at h
      cases h
      have he : e ∈ web := List.mem_of_find?_eq_some hfind
      have hfs := List.find?_some hfind
      have heu : e.1 = u := of_decide_eq_true hfs
      have hfg : fg ∈ e.2 := List.mem_of_find?_eq_some hfind2
      constructor
      · subst heu
        unfold webKeys
        rw [List.mem_toFinset]
        exact List.mem_map.mpr ⟨e, he, rfl⟩
      · exact mem_maxImportsLen web e fg he hfg

theorem logFormat_append_key (t : URI) (f : Format) (x : List Format) :
    ∀ A : List (URI × List Format), t ∉ A.map Prod.fst →
      logFormat t f (A ++ [(t, x)]) = A ++ [(t, x ++ [f])] := by
  intro A
  induction A with
  | nil =>
    intro _
    simp [logFormat]
  | cons e A ih =>
    obtain ⟨v, q⟩ := e
    intro h
    simp only [List.map_cons, List.mem_cons] at h
    push_neg at h
    have hvt : ¬ v = t := fun hv => h.1 hv.symm
    show logFormat t f ((v, q) :: (A ++ [(t, x)])) = (v, q) :: (A ++ [(t, x ++ [f])])
    simp only [logFormat, if_neg hvt]
    rw [ih h.2]

/-- Running the format loop when every remaining format fails to parse: the
loop falls through, logging each format, and ends at the after-loop policy
decision, leaving the seen set unchanged. -/
theorem tryRead_all_fail_isSome (web : Web) (error : Option String) (t : URI) :
    ∀ (fs : List Format) (fuel : Nat) (rs : Bool) (st : ResolveState),
      (∀ f ∈ fs, parseDoc web t f = none) → fs.length < fuel →
      ∃ res, tryRead web error fuel t fs rs st = some res ∧
        res.state.seen = st.seen := by
  intro fs
  induction fs with
  | nil =>
    intro fuel rs st _ hlt
    obtain ⟨fuel, rfl⟩ : ∃ k, fuel = k + 1 := ⟨fuel - 1, by omega⟩
    rw [tryRead_nil]
    cases rs with
    | true => exact ⟨ResolveResult.ok st, rfl, rfl⟩
    | false =>
      cases error with
      | none => exact ⟨ResolveResult.err st, rfl, rfl⟩
      | some s => exact ⟨ResolveResult.ok st, rfl, rfl⟩
  | cons f fs2 ih =>
    intro fuel rs st hall hlt
    obtain ⟨fuel, rfl⟩ : ∃ k, fuel = k + 1 := ⟨fuel - 1, by omega⟩
    rw [tryRead_cons_fail web error fuel t f fs2 rs st (hall f (List.mem_cons_self f fs2))]
    obtain ⟨res, hres, hseen⟩ := ih fuel rs ⟨st.gout, st.seen, logFormat t f st.attempts⟩
      (fun g hg => hall g (List.mem_cons_of_mem f hg))
      (by simp only [List.length_cons] at hlt; omega)
    exact ⟨res, hres, hseen⟩

/-- Exact run of the format loop when every remaining format fails to parse:
each format is logged in order onto the target's (last) log entry and the
loop falls through to the after-loop policy decision, where `read_success`
tells whether some earlier format of this target had parsed. -/
theorem tryRead_all_fail_eq (web : Web) (error : Option String) (t : URI) :
    ∀ (fs : List Format) (fuel : Nat) (rs : Bool) (A : List (URI × List Format))
      (x : List Format) (gout : Graph) (seen : Finset URI),
      (∀ f ∈ fs, parseDoc web t f = none) → t ∉ A.map Prod.fst → fs.length < fuel →
      tryRead web error fuel t fs rs ⟨gout, seen, A ++ [(t, x)]⟩ =
        (if rs then some (ResolveResult.ok ⟨gout, seen, A ++ [(t, x ++ fs)]⟩)
         else match error with
           | none => some (ResolveResult.err ⟨gout, seen, A ++ [(t, x ++ fs)]⟩)
           | some _ => some (ResolveResult.ok ⟨gout, seen, A ++ [(t, x ++ fs)]⟩)) := by
  intro fs
  induction fs with
  | nil =>
    intro fuel rs A x gout seen _ _ hlt
    obtain ⟨fuel, rfl⟩ : ∃ k, fuel = k + 1 := ⟨fuel - 1, by omega⟩
    rw [tryRead_nil, List.append_nil]
  | cons f fs2 ih =>
    intro fuel rs A x gout seen hall hA hlt
    obtain ⟨fuel, rfl⟩ : ∃ k, fuel = k + 1 := ⟨fuel - 1, by omega⟩
    rw [tryRead_cons_fail web error fuel t f fs2 rs _ (hall f (List.mem_cons_self f fs2))]
    show tryRead web error fuel t fs2 rs ⟨gout, seen, logFormat t f (A ++ [(t, x)])⟩ = _
    rw [logFormat_append_key t f x A hA]
    rw [ih fuel rs A (x ++ [f]) gout seen (fun g hg => hall g (List.mem_cons_of_mem f hg))
      hA (by simp only [List.length_cons] at hlt; omega)]
    have hx : x ++ [f] ++ fs2 = x ++ f :: fs2 := by simp
    rw [hx]

/-- Under error=None, a target none of whose formats parses — and none of
whose formats had parsed before (`read_success` false) — raises after the
loop: the format loop returns the propagating-exception outcome. -/
theorem tryRead_all_fail_failFast (web : Web) (t : URI) (fs : List Format)
    (fuel : Nat) (A : List (URI × List Format)) (x : List Format) (gout : Graph)
    (seen : Finset URI) (hall : ∀ f ∈ fs, parseDoc web t f = none)
    (hA : t ∉ A.map Prod.fst) (hlt : fs.length < fuel) :
    tryRead web none fuel t fs false ⟨gout, seen, A ++ [(t, x)]⟩ =
      some (ResolveResult.err ⟨gout, seen, A ++ [(t, x ++ fs)]⟩) := by
  rw [tryRead_all_fail_eq web none t fs fuel false A x gout seen hall hA hlt]
  rfl

/-- Under any non-None policy, a target none of whose remaining formats
parses falls through the loop and returns normally. -/
theorem tryRead_all_fail_ignore (web : Web) (s : String) (t : URI)
    (fs : List Format) (fuel : Nat) (rs : Bool) (A : List (URI × List Format))
    (x : List Format) (gout : Graph) (seen : Finset URI)
    (hall : ∀ f ∈ fs, parseDoc web t f = none) (hA : t ∉ A.map Prod.fst)
    (hlt : fs.length < fuel) :
    tryRead web (some s) fuel t fs rs ⟨gout, seen, A ++ [(t, x)]⟩ =
      some (ResolveResult.ok ⟨gout, seen, A ++ [(t, x ++ fs)]⟩) := by
  rw [tryRead_all_fail_eq web (some s) t fs fuel rs A x gout seen hall hA hlt]
  cases rs with
  | true => rfl
  | false => rfl

/-- Fuel sufficiency: with fuel exceeding a per-pending-element budget plus a
per-still-unseen-fetchable-document budget, neither loop ever hits the fuel
cutoff.  This is the termination argument of the import resolver: the seen
set only grows within the finite web, and each target's format loop has at
most `FORMATS.length` iterations, each descending into at most
`maxImportsLen` import rows. -/
theorem goImports_enough (web : Web) (error : Option String) :
    ∀ fuel,
      (∀ ts st,
        ts.length * elemCost + ((webKeys web) \ st.seen).card * keyCost web < fuel →
        (goImports web error fuel ts st).isSome) ∧
      (∀ t fs rs st, t ∈ webKeys web →
        fs.length * (1 + maxImportsLen web * elemCost) +
          ((webKeys web) \ st.seen).card * keyCost web < fuel →
        (tryRead web error fuel t fs rs st).isSome) := by
  intro fuel
  induction fuel with
  | zero =>
    exact ⟨fun ts st h => absurd h (Nat.not_lt_zero _),
      fun t fs rs st _ h => absurd h (Nat.not_lt_zero _)⟩
  | succ fuel ih =>
    obtain ⟨ihG, ihT⟩ := ih
    have hE1 : 1 ≤ elemCost := Nat.le_add_right 1 _
    have hF : FORMATS.length = 5 := rfl
    constructor
    · intro ts st hlt
      cases ts with
      | nil =>
        rw [goImports_nil]
        rfl
      | cons t rest =>
        simp only [List.length_cons] at hlt
        by_cases hmem : t ∈ st.seen
        · rw [goImports_cons_seen web error fuel t rest st hmem]
          apply ihG
          obtain ⟨A, hA⟩ : ∃ x, rest.length * elemCost = x := ⟨_, rfl⟩
          obtain ⟨Y, hY⟩ : ∃ x, (webKeys web \ st.seen).card * keyCost web = x := ⟨_, rfl⟩
          rw [Nat.succ_mul, hA, hY] at hlt
          rw [hA, hY]
          omega
        · rw [goImports_cons_open web error fuel t rest st hmem]
          by_cases htK : t ∈ webKeys web
          · have htKs : t ∈ webKeys web \ st.seen := Finset.mem_sdiff.mpr ⟨htK, hmem⟩
            have hss : webKeys web \ insert t st.seen = (webKeys web \ st.seen).erase t := by
              ext u
              simp only [Finset.mem_sdiff, Finset.mem_erase, Finset.mem_insert]
              tauto
            have hcard : (webKeys web \ insert t st.seen).card + 1 =
                (webKeys web \ st.seen).card := by
              rw [hss]
              exact Finset.card_erase_add_one htKs
            obtain ⟨K1, hK1⟩ : ∃ x, (webKeys web \ insert t st.seen).card = x := ⟨_, rfl⟩
            rw [hK1] at hcard
            rw [← hcard] at hlt
            obtain ⟨P, hP⟩ : ∃ x, 1 + maxImportsLen web * elemCost = x := ⟨_, rfl⟩
            have hC : keyCost web = 1 + 5 * P := by
              simp only [keyCost]
              rw [hF, hP]
            obtain ⟨A, hA⟩ : ∃ x, rest.length * elemCost = x := ⟨_, rfl⟩
            obtain ⟨Y, hY⟩ : ∃ x, K1 * keyCost web = x := ⟨_, rfl⟩
            rw [Nat.succ_mul, hA, Nat.succ_mul, hY, hC] at hlt
            have harithT : FORMATS.length * (1 + maxImportsLen web * elemCost) +
                (webKeys web \ insert t st.seen).card * keyCost web < fuel := by
              rw [hF, hP, hK1, hY]
              omega
            have hTsome := ihT t FORMATS false
              ⟨st.gout, insert t st.seen, st.attempts ++ [(t, [])]⟩ htK harithT
            rcases hres : tryRead web error fuel t FORMATS false
                ⟨st.gout, insert t st.seen, st.attempts ++ [(t, [])]⟩ with _ | r
            · rw [hres] at hTsome
              simp at hTsome
            · cases r with
              | err stE => rfl
              | ok st2 =>
                show (goImports web error fuel rest st2).isSome
                apply ihG
                have hmono : insert t st.seen ⊆ st2.seen :=
                  ((resolver_inv web error fuel).2 t FORMATS false _ _ hres).1
                have hsub : webKeys web \ st2.seen ⊆ webKeys web \ insert t st.seen :=
                  Finset.sdiff_subset_sdiff (le_refl _) hmono
                have hcardle := Finset.card_le_card hsub
                rw [hK1] at hcardle
                have hmul := Nat.mul_le_mul_right (keyCost web) hcardle
                rw [hC] at hmul
                obtain ⟨Z, hZ⟩ : ∃ x,
                    (webKeys web \ st2.seen).card * (1 + 5 * P) = x := ⟨_, rfl⟩
                rw [hZ] at hmul
                have hYj : K1 * (1 + 5 * P) = Y := by rw [← hC, hY]
                rw [hYj] at hmul
                rw [hA]
                rw [show (webKeys web \ st2.seen).card * keyCost web = Z by rw [hC, hZ]]
                omega
          · have hall : ∀ f ∈ FORMATS, parseDoc web t f = none := by
              intro f _
              cases hpd : parseDoc web t f with
              | none => rfl
              | some g => exact absurd (parseDoc_some web t f g hpd).1 htK
            have hlen : FORMATS.length < fuel := by
              have h1 : elemCost ≤ (rest.length + 1) * elemCost :=
                Nat.le_mul_of_pos_left _ (Nat.succ_pos _)
              have h2 : elemCost = 1 + FORMATS.length := rfl
              obtain ⟨B, hB⟩ : ∃ x, (rest.length + 1) * elemCost = x := ⟨_, rfl⟩
              obtain ⟨Y, hY⟩ : ∃ x, (webKeys web \ st.seen).card * keyCost web = x := ⟨_, rfl⟩
              rw [hB] at hlt h1
              rw [hY] at hlt
              omega
            obtain ⟨resF, hresF, hseenF⟩ := tryRead_all_fail_isSome web error t FORMATS fuel
              false ⟨st.gout, insert t st.seen, st.attempts ++ [(t, [])]⟩ hall hlen
            rw [hresF]
            cases resF with
            | err stE => rfl
            | ok st2 =>
              show (goImports web error fuel rest st2).isSome
              apply ihG
              have hseen2 : st2.seen = insert t st.seen := hseenF
              have hsub : webKeys web \ st2.seen ⊆ webKeys web \ st.seen := by
                rw [hseen2]
                exact Finset.sdiff_subset_sdiff (le_refl _) (Finset.subset_insert t st.seen)
              have hcardle := Finset.card_le_card hsub
              have hmul := Nat.mul_le_mul_right (keyCost web) hcardle
              obtain ⟨A, hA⟩ : ∃ x, rest.length * elemCost = x := ⟨_, rfl⟩
              obtain ⟨Y, hY⟩ : ∃ x, (webKeys web \ st.seen).card * keyCost web = x := ⟨_, rfl⟩
              obtain ⟨Z, hZ⟩ : ∃ x, (webKeys web \ st2.seen).card * keyCost web = x := ⟨_, rfl⟩
              rw [Nat.succ_mul, hA, hY] at hlt
              rw [hY, hZ] at hmul
              rw [hA, hZ]
              omega
    · intro t fs rs st htK hlt
      cases fs with
      | nil =>
        rw [tryRead_nil]
        cases rs with
        | true => rfl
        | false =>
          cases error with
          | none => rfl
          | some s => rfl
      | cons f fs2 =>
        simp only [List.length_cons] at hlt
        cases hp : parseDoc web t f with
        | none =>
          rw [tryRead_cons_fail web error fuel t f fs2 rs st hp]
          apply ihT t fs2 rs _ htK
          show fs2.length * (1 + maxImportsLen web * elemCost) +
            (webKeys web \ st.seen).card * keyCost web < fuel
          obtain ⟨P, hP⟩ : ∃ x, 1 + maxImportsLen web * elemCost = x := ⟨_, rfl⟩
          rw [hP] at hlt ⊢
          obtain ⟨X1, hX1⟩ : ∃ x, fs2.length * P = x := ⟨_, rfl⟩
          rw [Nat.succ_mul, hX1] at hlt
          rw [hX1]
          obtain ⟨Y, hY⟩ : ∃ x, (webKeys web \ st.seen).card * keyCost web = x := ⟨_, rfl⟩
          rw [hY] at hlt ⊢
          have hP1 : 1 ≤ P := hP ▸ Nat.le_add_right 1 _
          omega
        | some gin =>
          rw [tryRead_cons_parse web error fuel t f fs2 rs st gin hp]
          have hlenM : (importsOf gin).length ≤ maxImportsLen web :=
            (parseDoc_some web t f gin hp).2
          have hmulIE := Nat.mul_le_mul_right elemCost hlenM
          have harithN : (importsOf gin).length * elemCost +
              ((webKeys web) \ st.seen).card * keyCost web < fuel := by
            obtain ⟨IE, hIE⟩ : ∃ x, (importsOf gin).length * elemCost = x := ⟨_, rfl⟩
            obtain ⟨ME, hME⟩ : ∃ x, maxImportsLen web * elemCost = x := ⟨_, rfl⟩
            obtain ⟨X1, hX1⟩ : ∃ x, fs2.length * (1 + ME) = x := ⟨_, rfl⟩
            obtain ⟨Y, hY⟩ : ∃ x, (webKeys web \ st.seen).card * keyCost web = x := ⟨_, rfl⟩
            rw [hIE, hME] at hmulIE
            rw [hME, Nat.succ_mul, hX1, hY] at hlt
            rw [hIE, hY]
            omega
          have hNsome := ihG (importsOf gin)
            ⟨st.gout ∪ gin, st.seen, logFormat t f st.attempts⟩ harithN
          rcases hres : goImports web error fuel (importsOf gin)
              ⟨st.gout ∪ gin, st.seen, logFormat t f st.attempts⟩ with _ | r1
          · rw [hres] at hNsome
            simp at hNsome
          · cases r1 with
            | ok st4 => rfl
            | err stE =>
              show (tryRead web error fuel t fs2 true stE).isSome
              apply ihT t fs2 true stE htK
              have hmono : st.seen ⊆ stE.seen :=
                ((resolver_inv web error fuel).1 (importsOf gin) _ _ hres).1
              have hsub : webKeys web \ stE.seen ⊆ webKeys web \ st.seen :=
                Finset.sdiff_subset_sdiff (le_refl _) hmono
              have hcardle := Finset.card_le_card hsub
              have hmul := Nat.mul_le_mul_right (keyCost web) hcardle
              obtain ⟨ME, hME⟩ : ∃ x, maxImportsLen web * elemCost = x := ⟨_, rfl⟩
              obtain ⟨X1, hX1⟩ : ∃ x, fs2.length * (1 + ME) = x := ⟨_, rfl⟩
              obtain ⟨Y, hY⟩ : ∃ x, (webKeys web \ st.seen).card * keyCost web = x := ⟨_, rfl⟩
              obtain ⟨Z, hZ⟩ : ∃ x, (webKeys web \ stE.seen).card * keyCost web = x := ⟨_, rfl⟩
              rw [hME, Nat.succ_mul, hX1, hY] at hlt
              rw [hY, hZ] at hmul
              show fs2.length * (1 + maxImportsLen web * elemCost) +
                (webKeys web \ stE.seen).card * keyCost web < fuel
              rw [hME, hX1, hZ]
              omega

/-! ## Lemmas: the remote superclass crawler -/

theorem supTargets_cons_true (k : URI) (d : List (URI × Bool)) :
    supTargets ((k, true) :: d) = k :: supTargets d := rfl

theorem supTargets_append (d1 d2 : List (URI × Bool)) :
    supTargets (d1 ++ d2) = supTargets d1 ++ supTargets d2 := by
  simp [supTargets, List.filter_append]

theorem bpSup_seen (remote : Graph) (fuel : Nat) (k : URI) (st : BPState)
    (h : k ∈ st.seen) : bpSup remote (fuel + 1) k st = some st := by
  simp only [bpSup, if_pos h]

theorem bpSup_new (remote : Graph) (fuel : Nat) (k : URI) (st : BPState)
    (h : k ∉ st.seen) :
    bpSup remote (fuel + 1) k st = bpSupParents remote k fuel (parentsOf remote k)
      ⟨insert k st.seen, st.bioportal_graph, st.queries ++ [(k, true)]⟩ := by
  simp only [bpSup, if_neg h]

theorem bpSupParents_nil (remote : Graph) (k : URI) (fuel : Nat) (st : BPState) :
    bpSupParents remote k (fuel + 1) [] st = some st := rfl

theorem bpSupParents_cons (remote : Graph) (k : URI) (fuel : Nat) (kn : URI)
    (preds : List URI) (rest : List (URI × List URI)) (st : BPState) :
    bpSupParents remote k (fuel + 1) ((kn, preds) :: rest) st =
      match bpSup remote fuel kn ⟨st.seen,
          st.bioportal_graph ∪ (preds.map fun p => (⟨k, p, kn⟩ : Triple)).toFinset,
          st.queries⟩ with
      | none => none
      | some st2 => bpSupParents remote k fuel rest st2 := by
  simp only [bpSupParents]

/-- Combined invariant of the remote superclass crawl: the seen set only
grows, and the query log grows by a suffix whose superclass-query targets are
pairwise distinct, were all unseen at the start of the call, and are all in
the seen set on return (marked visited before the query is issued). -/
theorem bp_inv (remote : Graph) :
    ∀ fuel,
      (∀ k st st', bpSup remote fuel k st = some st' →
        st.seen ⊆ st'.seen ∧ ∃ delta, st'.queries = st.queries ++ delta ∧
          (supTargets delta).Nodup ∧
          ∀ u ∈ supTargets delta, u ∈ st'.seen ∧ u ∉ st.seen) ∧
      (∀ k ps st st', bpSupParents remote k fuel ps st = some st' →
        st.seen ⊆ st'.seen ∧ ∃ delta, st'.queries = st.queries ++ delta ∧
          (supTargets delta).Nodup ∧
          ∀ u ∈ supTargets delta, u ∈ st'.seen ∧ u ∉ st.seen) := by
  intro fuel
  induction fuel with
  | zero =>
    exact ⟨fun k st st' h => Option.noConfusion h,
      fun k ps st st' h => Option.noConfusion h⟩
  | succ fuel ih =>
    obtain ⟨ihS, ihP⟩ := ih
    constructor
    · intro k st st' h
      by_cases hmem : k ∈ st.seen
      · rw [bpSup_seen remote fuel k st hmem] at h
        cases h
        exact ⟨fun x hx => hx, [], (List.append_nil _).symm, by simp [supTargets],
          by simp [supTargets]⟩
      · rw [bpSup_new remote fuel k st hmem] at h
        obtain ⟨hmono, d, hdeq, hdnodup, hdmem⟩ := ihP k (parentsOf remote k) _ _ h
        simp only [] at hmono hdeq hdmem
        refine ⟨fun x hx => hmono (Finset.mem_insert_of_mem hx), (k, true) :: d, ?_, ?_, ?_⟩
        · rw [hdeq]
          simp
        · rw [supTargets_cons_true]
          simp only [List.nodup_cons]
          exact ⟨fun hu => (hdmem k hu).2 (Finset.mem_insert_self k _), hdnodup⟩
        · intro u hu
          rw [supTargets_cons_true] at hu
          rcases List.mem_cons.mp hu with rfl | hu
          · exact ⟨hmono (Finset.mem_insert_self _ _), hmem⟩
          · exact ⟨(hdmem u hu).1, fun hus => (hdmem u hu).2 (Finset.mem_insert_of_mem hus)⟩
    · intro k ps st st' h
      cases ps with
      | nil =>
        rw [bpSupParents_nil] at h
        cases h
        exact ⟨fun x hx => hx, [], (List.append_nil _).symm, by simp [supTargets],
          by simp [supTargets]⟩
      | cons p rest =>
        obtain ⟨kn, preds⟩ := p
        rw [bpSupParents_cons] at h
        rcases hres : bpSup remote fuel kn ⟨st.seen,
            st.bioportal_graph ∪ (preds.map fun p => (⟨k, p, kn⟩ : Triple)).toFinset,
            st.queries⟩ with _ | st2
        · rw [hres] at h
          cases h
        · rw [hres] at h
          replace h : bpSupParents remote k fuel rest st2 = some st' := h
          obtain ⟨hmono1, d1, hd1eq, hd1nodup, hd1mem⟩ := ihS kn _ _ hres
          obtain ⟨hmono2, d2, hd2eq, hd2nodup, hd2mem⟩ := ihP k rest _ _ h
          simp only [] at hmono1 hd1eq hd1mem
          refine ⟨fun x hx => hmono2 (hmono1 hx), d1 ++ d2, ?_, ?_, ?_⟩
          · rw [hd2eq, hd1eq]
            simp
          · rw [supTargets_append]
            rw [List.nodup_append]
            refine ⟨hd1nodup, hd2nodup, ?_⟩
            intro u hu1 hu2
            exact (hd2mem u hu2).2 ((hd1mem u hu1).1)
          · intro u hu
            rw [supTargets_append] at hu
            rcases List.mem_append.mp hu with hu | hu
            · exact ⟨hmono2 (hd1mem u hu).1, (hd1mem u hu).2⟩
            · exact ⟨(hd2mem u hu).1, fun hus => (hd2mem u hu).2 (hmono1 hus)⟩

/-! ## Lemmas: the graph-object store -/

theorem Heap.read_append (h : Heap) (l : List Graph) (i : Nat) (hi : i < h.length) :
    Heap.read (h ++ l) i = Heap.read h i := by
  unfold Heap.read
  rw [List.getD_append _ _ _ _ hi]

theorem Heap.read_write_ne (h : Heap) (j : Nat) (g : Graph) (i : Nat) (hij : i ≠ j) :
    Heap.read (Heap.write h j g) i = Heap.read h i := by
  unfold Heap.read Heap.write
  simp only [List.getD_eq_getElem?_getD]
  rw [List.getElem?_set_ne (by omega)]

theorem Heap.write_length (h : Heap) (j : Nat) (g : Graph) :
    (Heap.write h j g).length = h.length := by
  unfold Heap.write
  exact List.length_set h j g

/-- The store-level import resolver only appends freshly allocated graphs. -/
theorem retrieve_ontologies_h_frame (web : Web) (error : Option String)
    (inplace : Bool) (fuel : Nat) (h : Heap) (gid : Nat) :
    ∃ l, (retrieve_ontologies_h web error inplace fuel h gid).1 = h ++ l := by
  unfold retrieve_ontologies_h
  rcases goImports web error fuel (importsOf (Heap.read h gid)) ⟨∅, ∅, []⟩ with _ | r
  · exact ⟨[], (List.append_nil h).symm⟩
  · cases r with
    | err st => exact ⟨[], (List.append_nil h).symm⟩
    | ok st => exact ⟨[if inplace then Heap.read h gid ∪ st.gout else st.gout], rfl⟩

/-- The seed loop never touches store entries below the entity object. -/
theorem crawlSeedLoopH_frame (combined : Graph) (properties : List URI)
    (params : ExtractParams) :
    ∀ (seeds : List URI) (h : Heap) (eid : Nat) (n : Nat), n ≤ eid →
      (crawlSeedLoopH combined properties params seeds h eid).1.length = h.length ∧
      ∀ i, i < n →
        Heap.read ((crawlSeedLoopH combined properties params seeds h eid).1) i =
          Heap.read h i := by
  intro seeds
  induction seeds with
  | nil =>
    intro h eid n hne
    exact ⟨rfl, fun i hi => rfl⟩
  | cons s rest ih =>
    intro h eid n hne
    rcases hE : extract_paths s combined properties params.down params.up none
        params.up_shallow params.down_shallow with e | pr
    · refine ⟨?_, fun i hi => ?_⟩ <;> simp only [crawlSeedLoopH, hE]
    · rcases h1 : setAsTriple pr.1 with e | t1
      · refine ⟨?_, fun i hi => ?_⟩ <;> simp only [crawlSeedLoopH, hE, h1]
      · rcases h2 : setAsTriple pr.2 with e | t2
        · simp only [crawlSeedLoopH, hE, h1, h2]
          refine ⟨Heap.write_length h eid _, fun i hi => ?_⟩
          exact Heap.read_write_ne h eid _ i (by omega)
        · simp only [crawlSeedLoopH, hE, h1, h2]
          obtain ⟨hlen, hread⟩ := ih
            (Heap.write (Heap.write h eid (insert t1 (Heap.read h eid))) eid
              (insert t2 (Heap.read (Heap.write h eid (insert t1 (Heap.read h eid))) eid)))
            eid n hne
          refine ⟨?_, fun i hi => ?_⟩
          · rw [hlen, Heap.write_length, Heap.write_length]
          · rw [hread i hi, Heap.read_write_ne _ eid _ i (by omega),
              Heap.read_write_ne _ eid _ i (by omega)]

/-- The store-level orchestrator never changes a pre-existing graph object:
reads of any object allocated before the call are unchanged, for every error
policy, merge policy and flag combination and every outcome. -/
theorem retrieve_crawl_paths_h_read (web : Web) (fuel : Nat) (h : Heap) (gid : Nat)
    (seed_query : SeedQuery) (properties : List URI) (expand_ontologies inplace : Bool)
    (params : ExtractParams) (i : Nat) (hi : i < h.length) :
    Heap.read ((retrieve_crawl_paths_h web fuel h gid seed_query properties
      expand_ontologies inplace params).1) i = Heap.read h i := by
  unfold retrieve_crawl_paths_h
  cases _retrieve_seed_classes (Heap.read h gid) seed_query with
  | error e => rfl
  | ok seed =>
    by_cases hexp : expand_ontologies
    · simp only [if_pos hexp]
      obtain ⟨l, hl⟩ := retrieve_ontologies_h_frame web none false fuel h gid
      rcases hA : retrieve_ontologies_h web none false fuel h gid with ⟨h1, r⟩
      rw [hA] at hl
      simp only [] at hl
      have hlen1 : h.length ≤ h1.length := by
        rw [hl, List.length_append]
        omega
      have hread1 : Heap.read h1 i = Heap.read h i := by
        rw [hl]
        exact Heap.read_append h l i hi
      cases r with
      | none => exact hread1
      | some r2 =>
        cases r2 with
        | error e => exact hread1
        | ok oid =>
          dsimp only [Heap.alloc]
          obtain ⟨hlen2, hread2⟩ := crawlSeedLoopH_frame
            (Heap.read (h1 ++ [∅]) gid ∪ Heap.read (h1 ++ [∅]) oid) properties params
            (sortURIs seed) (h1 ++ [∅]) h1.length h.length hlen1
          rcases hloop : crawlSeedLoopH
              (Heap.read (h1 ++ [∅]) gid ∪ Heap.read (h1 ++ [∅]) oid) properties params
              (sortURIs seed) (h1 ++ [∅]) h1.length with ⟨h3, r3⟩
          rw [hloop] at hlen2 hread2
          simp only [] at hlen2 hread2
          have hread3 : Heap.read h3 i = Heap.read h i := by
            rw [hread2 i hi, Heap.read_append h1 [∅] i (by omega)]
            exact hread1
          have hlen3 : i < h3.length := by
            rw [hlen2, List.length_append]
            omega
          cases r3 with
          | some e => exact hread3
          | none =>
            by_cases hip : inplace
            · simp only [if_pos hip]
              rw [Heap.read_append h3 _ i hlen3]
              exact hread3
            · simp only [if_neg hip]
              exact hread3
    · simp only [if_neg hexp]
      dsimp only [Heap.alloc]
      have hlen1 : h.length ≤ (h ++ [(∅ : Graph)]).length := by
        rw [List.length_append]
        omega
      have hread1 : Heap.read (h ++ [(∅ : Graph)]) i = Heap.read h i :=
        Heap.read_append h [∅] i hi
      obtain ⟨hlen2, hread2⟩ := crawlSeedLoopH_frame
        (Heap.read ((h ++ [∅]) ++ [∅]) gid ∪ Heap.read ((h ++ [∅]) ++ [∅]) h.length)
        properties params (sortURIs seed) ((h ++ [∅]) ++ [∅]) (h ++ [(∅ : Graph)]).length
        h.length (by rw [List.length_append]; omega)
      rcases hloop : crawlSeedLoopH
          (Heap.read ((h ++ [∅]) ++ [∅]) gid ∪ Heap.read ((h ++ [∅]) ++ [∅]) h.length)
          properties params (sortURIs seed) ((h ++ [∅]) ++ [∅]) (h ++ [(∅ : Graph)]).length
          with ⟨h3, r3⟩
      rw [hloop] at hlen2 hread2
      simp only [] at hlen2 hread2
      have hread3 : Heap.read h3 i = Heap.read h i := by
        rw [hread2 i hi, Heap.read_append (h ++ [∅]) [∅] i (by rw [List.length_append]; omega)]
        exact hread1
      have hlen3 : i < h3.length := by
        rw [hlen2, List.length_append, List.length_append]
        omega
      cases r3 with
      | some e => exact hread3
      | none =>
        by_cases hip : inplace
        · simp only [if_pos hip]
          rw [Heap.read_append h3 _ i hlen3]
          exact hread3
        · simp only [if_neg hip]
          exact hread3

/-! ## The claims -/

/-- C1: the spec claims a seed-selection query projecting zero or two
variables makes retrieve_crawl_paths fail with a SeedQueryError before any
work.  The code has no such validation (the docstring TODO of
`_retrieve_seed_classes` records it as unimplemented): on a two-variable
query it silently keeps each row's first binding and the orchestrator
proceeds into extraction, failing only later with the unrelated
`ValueError` of C3 — no seed-query error exists anywhere in the code. -/
theorem c1_no_seed_query_validation :
    _retrieve_seed_classes oneEdgeGraph twoVarQuery = Except.ok {"urn:a"} ∧
    retrieve_crawl_paths [] 10 oneEdgeGraph twoVarQuery [] false false
      defaultExtractParams = some (Except.error PyError.valueError) := by
  exact ⟨by decide, by decide⟩

/-- C2: the spec claims extract_paths completes normally for every up/down
combination.  In the code a disabled direction leaves its result variable
unassigned and `return superclasses, subclasses` raises UnboundLocalError,
so only up=true, down=true completes. -/
theorem c2_direction_flags_crash :
    extract_paths "urn:A" oneEdgeGraph [] true false none true true =
      Except.error (PyError.unboundLocal "superclasses") ∧
    extract_paths "urn:A" oneEdgeGraph [] false true none true true =
      Except.error (PyError.unboundLocal "subclasses") ∧
    extract_paths "urn:A" oneEdgeGraph [] false false none true true =
      Except.error (PyError.unboundLocal "superclasses") ∧
    extract_paths "urn:A" oneEdgeGraph [] true true none true true =
      Except.ok ({"urn:B"}, ∅) := by
  exact ⟨by decide, by decide, by decide, by decide⟩

/-- C3: the spec claims the orchestrator accumulates extraction results into
one result graph and returns it (merged or isolated).  In the code
`entity_graph += extract_paths(...)` feeds the PAIR of node sets to rdflib
`Graph.__iadd__`, which unpacks each set as a triple and raises ValueError
whenever a result set does not have exactly three elements (here the seed
has one superclass), for both merge policies. -/
theorem c3_result_accumulation_crashes :
    retrieve_crawl_paths [] 10 oneEdgeGraph oneVarQuery [] false false
      defaultExtractParams = some (Except.error PyError.valueError) ∧
    retrieve_crawl_paths [] 10 oneEdgeGraph oneVarQuery [] false true
      defaultExtractParams = some (Except.error PyError.valueError) := by
  exact ⟨by decide, by decide⟩

/-- C4 counterexample: with predicate filter P = [] the claim predicts an
empty ancestor set, but extract_paths ignores its properties argument and
follows the hardcoded rdfs:subClassOf/owl:equivalentClass path, returning
{urn:B}. -/
theorem c4_counterexample :
    extract_paths "urn:A" oneEdgeGraph [] true true none true true =
      Except.ok ({"urn:B"}, ∅) ∧
    specDirectAncestors [] oneEdgeGraph "urn:A" = ∅ ∧
    ({"urn:B"} : Finset URI) ≠ ∅ := by
  exact ⟨by decide, by decide, by decide⟩

/-- C4 (amended): with the predicate filter fixed to the hardcoded
{rdfs:subClassOf, owl:equivalentClass} — the properties argument is ignored —
extract_paths with up=true returns as its ancestor set exactly the one-hop
hierarchy successors of the seed when upShallow=true, and exactly the
transitive closure (each node at most once: the result is a set) when
upShallow=false. -/
theorem c4_ancestor_semantics (g : Graph) (seed : URI) (P : List URI)
    (dsh : Bool) (c : URI) :
    (extract_paths seed g P true true none true dsh =
      Except.ok (find_superclasses g seed true, find_subclasses g seed dsh)) ∧
    (extract_paths seed g P true true none false dsh =
      Except.ok (find_superclasses g seed false, find_subclasses g seed dsh)) ∧
    (c ∈ find_superclasses g seed true ↔ hierEdge g seed c) ∧
    (c ∈ find_superclasses g seed false ↔ Relation.TransGen (hierEdge g) seed c) :=
  ⟨rfl, rfl, mem_find_superclasses_shallow g seed c, mem_find_superclasses_deep g seed c⟩

/-- C5: the import resolver terminates on every input over a finite web — the
explicit fuel bound `enoughFuel` always suffices, so the cutoff is never hit;
each distinct import URI is attempted at most once per resolution; and on the
two-cycle web (A imports B, B imports A) the visited set at completion is
exactly {urn:A, urn:B}, each attempted once. -/
theorem c5_resolver_terminates :
    (∀ (web : Web) (error : Option String) (g : Graph),
      (retrieve_ontologies_full web g error (enoughFuel web (importsOf g))).isSome) ∧
    (∀ (web : Web) (error : Option String) (g : Graph) (fuel : Nat)
        (res : ResolveResult), retrieve_ontologies_full web g error fuel = some res →
      (res.state.attempts.map Prod.fst).Nodup) ∧
    ((retrieve_ontologies_full cycleWeb rootCycle none 10).map (fun r => r.isOk) =
      some true) ∧
    ((retrieve_ontologies_full cycleWeb rootCycle none 10).map
        (fun r => sortURIs r.state.seen) = some ["urn:A", "urn:B"]) ∧
    ((retrieve_ontologies_full cycleWeb rootCycle none 10).map
        (fun r => r.state.attempts.map Prod.fst) = some ["urn:A", "urn:B"]) := by
  refine ⟨?_, ?_, by decide, by decide, by decide⟩
  · intro web error g
    unfold retrieve_ontologies_full
    apply (goImports_enough web error (enoughFuel web (importsOf g))).1
    show (importsOf g).length * elemCost +
      ((webKeys web) \ (∅ : Finset URI)).card * keyCost web <
      enoughFuel web (importsOf g)
    unfold enoughFuel
    rw [Finset.sdiff_empty]
    exact Nat.lt_succ_self _
  · intro web error g fuel res h
    exact (((resolver_inv web error fuel).1 (importsOf g) ⟨∅, ∅, []⟩ res h).2.2
      ⟨List.nodup_nil, fun u hu => absurd hu (List.not_mem_nil u),
        fun e he => absurd he (List.not_mem_nil e)⟩).1

/-- C5 witness: the general parts applied to the concrete two-cycle web. -/
theorem c5_witness :
    (retrieve_ontologies_full cycleWeb rootCycle none
        (enoughFuel cycleWeb (importsOf rootCycle))).isSome ∧
    (match retrieve_ontologies_full cycleWeb rootCycle none 10 with
      | some res => (res.state.attempts.map Prod.fst).Nodup
      | none => False) := by
  refine ⟨c5_resolver_terminates.1 cycleWeb none rootCycle, ?_⟩
  rcases hres : retrieve_ontologies_full cycleWeb rootCycle none 10 with _ | res
  · have hs : (retrieve_ontologies_full cycleWeb rootCycle none 10).isSome := by decide
    rw [hres] at hs
    simp at hs
  · exact c5_resolver_terminates.2.1 cycleWeb none rootCycle 10 res hres

/-- C6 counterexample: the claim says that under FailFast (error=None) the
ENTIRE resolution is aborted whenever all serialization formats fail for
one import target.  On the nested web the target urn:bad — reached through the
successfully parsed document at urn:good — fails in every format (first
conjunct), is attempted during the run (second conjunct), and yet the
resolution completes normally (third conjunct): the exception raised by the
recursive _import_ontologies call is caught by the parent's try/except
(which wraps the recursion, source lines 249-258), and since urn:good had
already been read successfully no error is raised after the parent's format
loop either. -/
theorem c6_counterexample :
    (∀ f ∈ FORMATS, parseDoc badGoodWeb "urn:bad" f = none) ∧
    ((retrieve_ontologies_full badGoodWeb rootNestedOnly none 10).map
        (fun r => r.state.attempts.map Prod.fst) = some ["urn:good", "urn:bad"]) ∧
    ((retrieve_ontologies_full badGoodWeb rootNestedOnly none 10).map
        (fun r => r.isOk) = some true) := by
  exact ⟨by decide, by decide, by decide⟩

/-- C6 (amended): when every serialization format fails for an import target,
the policy split applies at the level of the import list that contains the
target: under error=None (FailFast) the exhausted-format exception aborts
that level — the remaining sibling imports are never reached and the final
log entry is the failed target with all five formats — and it escapes
retrieve_ontologies only when that level is the caller graph's own import
list, since one recursion level up the exception is swallowed by the
enclosing try/except; under error='ignore' the target is recorded as seen
and the loop continues with exactly the remaining siblings.  Concretely: the
top-level failure of urn:bad propagates out of retrieve_ontologies under
FailFast while Ignore still imports the sibling urn:good, and the nested
failure of urn:bad behind urn:good is swallowed even under FailFast, the run
completing with urn:good's triples. -/
theorem c6_amended :
    (∀ (web : Web) (fuel : Nat) (t : URI) (rest : List URI) (st : ResolveState),
      t ∉ st.seen → t ∉ st.attempts.map Prod.fst →
      (∀ f ∈ FORMATS, parseDoc web t f = none) → FORMATS.length < fuel →
      goImports web none (fuel + 1) (t :: rest) st =
        some (ResolveResult.err
          ⟨st.gout, insert t st.seen, st.attempts ++ [(t, FORMATS)]⟩)) ∧
    (∀ (web : Web) (s : String) (fuel : Nat) (t : URI) (rest : List URI)
        (st : ResolveState),
      t ∉ st.seen → t ∉ st.attempts.map Prod.fst →
      (∀ f ∈ FORMATS, parseDoc web t f = none) → FORMATS.length < fuel →
      goImports web (some s) (fuel + 1) (t :: rest) st =
        goImports web (some s) fuel rest
          ⟨st.gout, insert t st.seen, st.attempts ++ [(t, FORMATS)]⟩) ∧
    retrieve_ontologies badGoodWeb rootBadGood none true 10 =
      some (Except.error PyError.exhaustedFormats) ∧
    retrieve_ontologies badGoodWeb rootBadGood (some "ignore") false 10 =
      some (Except.ok docGood) ∧
    retrieve_ontologies badGoodWeb rootNestedOnly none false 10 =
      some (Except.ok docGood) := by
  refine ⟨?_, ?_, by decide, by decide, by decide⟩
  · intro web fuel t rest st hseen hatt hall hlen
    rw [goImports_cons_open web none fuel t rest st hseen,
      tryRead_all_fail_failFast web t FORMATS fuel st.attempts [] st.gout
        (insert t st.seen) hall hatt hlen]
    rfl
  · intro web s fuel t rest st hseen hatt hall hlen
    rw [goImports_cons_open web (some s) fuel t rest st hseen,
      tryRead_all_fail_ignore web s t FORMATS fuel false st.attempts [] st.gout
        (insert t st.seen) hall hatt hlen]
    rfl

/-- C6 amended witness: the policy dichotomy applied to the unparseable
top-level target urn:bad of the concrete bad/good web. -/
theorem c6_amended_witness :
    goImports badGoodWeb none (9 + 1) ["urn:bad", "urn:good"] ⟨∅, ∅, []⟩ =
      some (ResolveResult.err ⟨(∅ : Graph), insert "urn:bad" (∅ : Finset URI),
        ([] : List (URI × List Format)) ++ [("urn:bad", FORMATS)]⟩) ∧
    goImports badGoodWeb (some "ignore") (9 + 1) ["urn:bad", "urn:good"] ⟨∅, ∅, []⟩ =
      goImports badGoodWeb (some "ignore") 9 ["urn:good"]
        ⟨(∅ : Graph), insert "urn:bad" (∅ : Finset URI),
          ([] : List (URI × List Format)) ++ [("urn:bad", FORMATS)]⟩ := by
  exact ⟨c6_amended.1 badGoodWeb 9 "urn:bad" ["urn:good"] ⟨∅, ∅, []⟩ (by decide)
      (by decide) (by decide) (by decide),
    c6_amended.2.1 badGoodWeb "ignore" 9 "urn:bad" ["urn:good"] ⟨∅, ∅, []⟩ (by decide)
      (by decide) (by decide) (by decide)⟩

/-- C7 counterexample: within one crawl session (superclass expansion of the
seed, then the one-hop subclass query the driver issues for the same seed)
the node urn:s receives TWO remote queries even though it is already in the
session visited set when the subclass query is issued — the subclass crawler
has no visited-before-query guard, refuting "at most one remote query per
distinct node identifier". -/
theorem c7_counterexample :
    (Option.map
      (fun st1 => (find_bioportal_subclasses ∅ "urn:s" st1).queries.countP
        (fun q => q.1 = "urn:s"))
      (bpSup (∅ : Graph) 5 "urn:s" ⟨∅, ∅, []⟩)) = some 2 ∧
    (Option.map (fun st1 => decide ("urn:s" ∈ st1.seen))
      (bpSup (∅ : Graph) 5 "urn:s" ⟨∅, ∅, []⟩)) = some true := by
  exact ⟨by decide, by decide⟩

/-- C7 (amended): the visited guard protects exactly the recursive superclass
crawler: within one session its superclass-query targets are pairwise
distinct, every queried node is marked visited before its superclass query
is issued (every logged target is in the visited set), and an
already-visited node returns immediately without querying; the one-hop
subclass crawler performs no visited check and appends its remote query
unconditionally, so a node can additionally receive one subclass query per
call. -/
theorem c7_amended (remote : Graph) (fuel : Nat) (k : URI) (st st' : BPState)
    (hrun : bpSup remote fuel k st = some st')
    (hnodup : (supTargets st.queries).Nodup)
    (hqs : ∀ u ∈ supTargets st.queries, u ∈ st.seen) :
    (supTargets st'.queries).Nodup ∧
    (∀ u ∈ supTargets st'.queries, u ∈ st'.seen) ∧
    (k ∈ st.seen → bpSup remote (fuel + 1) k st = some st) ∧
    (find_bioportal_subclasses remote k st').queries = st'.queries ++ [(k, false)] := by
  obtain ⟨hmono, delta, hdeq, hdnodup, hdmem⟩ := (bp_inv remote fuel).1 k st st' hrun
  refine ⟨?_, ?_, fun hk => bpSup_seen remote fuel k st hk, rfl⟩
  · rw [hdeq, supTargets_append, List.nodup_append]
    exact ⟨hnodup, hdnodup, fun u hu1 hu2 => (hdmem u hu2).2 (hqs u hu1)⟩
  · intro u hu
    rw [hdeq, supTargets_append] at hu
    rcases List.mem_append.mp hu with hu | hu
    · exact hmono (hqs u hu)
    · exact (hdmem u hu).1

/-- C7 amended witness: the guarded-crawler facts at a concrete session. -/
theorem c7_amended_witness :
    ∃ st', bpSup (∅ : Graph) 5 "urn:s" ⟨∅, ∅, []⟩ = some st' ∧
      (supTargets st'.queries).Nodup ∧
      (find_bioportal_subclasses ∅ "urn:s" st').queries = st'.queries ++ [("urn:s", false)] := by
  rcases hres : bpSup (∅ : Graph) 5 "urn:s" ⟨∅, ∅, []⟩ with _ | st'
  · have hs : (bpSup (∅ : Graph) 5 "urn:s" ⟨∅, ∅, []⟩).isSome := by decide
    rw [hres] at hs
    simp at hs
  · have hc := c7_amended ∅ 5 "urn:s" ⟨∅, ∅, []⟩ st' hres (by decide) (by decide)
    exact ⟨st', rfl, hc.1, hc.2.2.2⟩

/-- C8 counterexample: the claim says the resolver stops at the first format
that parses successfully, a later format being attempted only if every
earlier format failed.  On the nested run urn:good parses successfully under
the FIRST format, RDF/XML (first conjunct), yet all five formats end up
attempted for it (second and third conjuncts: the final log maps urn:good to
the full format list): the recursion into the parsed document sits inside the
same try as the parse, its exhausted-format raise for urn:bad is caught by
the except, and the format loop resumes with N3, N-Triples, TriX and RDFa
despite the earlier successful parse. -/
theorem c8_counterexample :
    parseDoc badGoodWeb "urn:good" Format.xml = some docGood ∧
    ((retrieve_ontologies_full badGoodWeb rootNestedOnly none 10).map
        (fun r => r.state.attempts.map Prod.fst) = some ["urn:good", "urn:bad"]) ∧
    ((retrieve_ontologies_full badGoodWeb rootNestedOnly none 10).map
        (fun r => r.state.attempts.map Prod.snd) = some [FORMATS, FORMATS]) := by
  exact ⟨by decide, by decide, by decide⟩

/-- C8 (amended): for every import target the serialization formats are
attempted in the fixed priority order RDF/XML, N3, N-Triples, TriX, RDFa:
every attempt-log entry of a run started from a well-formed log is a prefix
of that order (first conjunct); a format that fails to parse makes the loop
fall through to the next format in order (second conjunct); a format that
parses hands control to the recursive import of the parsed document, and the
loop stops there if the recursion returns normally, resuming with the next
format only when the recursion raised (and the raise was swallowed) — so a
later format can be attempted after a successful parse (third conjunct);
under error='ignore' the recursion never raises, and the loop genuinely
stops at the first format that parses successfully (fourth conjunct). -/
theorem c8_amended :
    (∀ (web : Web) (error : Option String) (fuel : Nat) (ts : List URI)
        (st : ResolveState) (res : ResolveResult),
      goImports web error fuel ts st = some res → AttemptInv st →
      ∀ e ∈ res.state.attempts, ∃ k, k ≤ FORMATS.length ∧ e.2 = FORMATS.take k) ∧
    (∀ (web : Web) (error : Option String) (fuel : Nat) (t : URI) (f : Format)
        (fs : List Format) (rs : Bool) (st : ResolveState),
      parseDoc web t f = none →
      tryRead web error (fuel + 1) t (f :: fs) rs st =
        tryRead web error fuel t fs rs ⟨st.gout, st.seen, logFormat t f st.attempts⟩) ∧
    (∀ (web : Web) (error : Option String) (fuel : Nat) (t : URI) (f : Format)
        (fs : List Format) (rs : Bool) (st : ResolveState) (gin : Graph),
      parseDoc web t f = some gin →
      tryRead web error (fuel + 1) t (f :: fs) rs st =
        match goImports web error fuel (importsOf gin)
            ⟨st.gout ∪ gin, st.seen, logFormat t f st.attempts⟩ with
        | none => none
        | some (ResolveResult.err stE) => tryRead web error fuel t fs true stE
        | some (ResolveResult.ok st4) => some (ResolveResult.ok st4)) ∧
    (∀ (web : Web) (s : String) (fuel : Nat) (t : URI) (f : Format)
        (fs : List Format) (rs : Bool) (st : ResolveState) (gin : Graph)
        (res : ResolveResult),
      parseDoc web t f = some gin →
      tryRead web (some s) (fuel + 1) t (f :: fs) rs st = some res →
      ∃ st4, res = ResolveResult.ok st4 ∧
        goImports web (some s) fuel (importsOf gin)
          ⟨st.gout ∪ gin, st.seen, logFormat t f st.attempts⟩ =
          some (ResolveResult.ok st4)) := by
  refine ⟨?_, ?_, ?_, ?_⟩
  · intro web error fuel ts st res h hI
    exact (((resolver_inv web error fuel).1 ts st res h).2.2 hI).2.2
  · intro web error fuel t f fs rs st hp
    exact tryRead_cons_fail web error fuel t f fs rs st hp
  · intro web error fuel t f fs rs st gin hp
    exact tryRead_cons_parse web error fuel t f fs rs st gin hp
  · intro web s fuel t f fs rs st gin res hp h
    rw [tryRead_cons_parse web (some s) fuel t f fs rs st gin hp] at h
    rcases hN : goImports web (some s) fuel (importsOf gin)
        ⟨st.gout ∪ gin, st.seen, logFormat t f st.attempts⟩ with _ | r1
    · rw [hN] at h
      cases h
    · rw [hN] at h
      cases r1 with
      | err stE =>
        exact absurd hN ((goImports_some_policy_ok web s fuel).1 (importsOf gin) _ stE)
      | ok st4 =>
        replace h : some (ResolveResult.ok st4) = some res := h
        have hres2 : ResolveResult.ok st4 = res := Option.some.inj h
        exact ⟨st4, hres2.symm, rfl⟩

/-- C8 amended witness: the prefix-order fact on the nested run, the
in-order fall-through on the n3-only web, and the stop-at-first-success fact
under the ignore policy at a concrete state where the parsed document's
one import row is already seen. -/
theorem c8_amended_witness :
    (match retrieve_ontologies_full badGoodWeb rootNestedOnly none 10 with
      | some res => ∀ e ∈ res.state.attempts,
          ∃ k, k ≤ FORMATS.length ∧ e.2 = FORMATS.take k
      | none => False) ∧
    (tryRead n3OnlyWeb none (3 + 1) "urn:u" [Format.xml, Format.n3] false
        ⟨∅, ∅, [("urn:u", [])]⟩ =
      tryRead n3OnlyWeb none 3 "urn:u" [Format.n3] false
        ⟨∅, ∅, logFormat "urn:u" Format.xml [("urn:u", [])]⟩) ∧
    (match tryRead badGoodWeb (some "ignore") (4 + 1) "urn:good" FORMATS false
        ⟨∅, {"urn:bad"}, [("urn:good", [])]⟩ with
      | some res => ∃ st4, res = ResolveResult.ok st4 ∧
          goImports badGoodWeb (some "ignore") 4 (importsOf docGood)
            ⟨∅ ∪ docGood, {"urn:bad"},
              logFormat "urn:good" Format.xml [("urn:good", [])]⟩ =
            some (ResolveResult.ok st4)
      | none => False) := by
  refine ⟨?_, ?_, ?_⟩
  · rcases hres : retrieve_ontologies_full badGoodWeb rootNestedOnly none 10 with _ | res
    · have hs : (retrieve_ontologies_full badGoodWeb rootNestedOnly none 10).isSome := by
        decide
      rw [hres] at hs
      simp at hs
    · exact c8_amended.1 badGoodWeb none 10 (importsOf rootNestedOnly) ⟨∅, ∅, []⟩ res hres
        ⟨List.nodup_nil, fun u hu => absurd hu (List.not_mem_nil u),
          fun e he => absurd he (List.not_mem_nil e)⟩
  · exact c8_amended.2.1 n3OnlyWeb none 3 "urn:u" Format.xml [Format.n3] false
      ⟨∅, ∅, [("urn:u", [])]⟩ (by decide)
  · rcases hres : tryRead badGoodWeb (some "ignore") (4 + 1) "urn:good" FORMATS false
        ⟨∅, {"urn:bad"}, [("urn:good", [])]⟩ with _ | res
    · have hs : (tryRead badGoodWeb (some "ignore") (4 + 1) "urn:good" FORMATS false
          ⟨∅, {"urn:bad"}, [("urn:good", [])]⟩).isSome := by decide
      rw [hres] at hs
      simp at hs
    · exact c8_amended.2.2.2 badGoodWeb "ignore" 4 "urn:good" Format.xml
        [Format.n3, Format.nt, Format.trix, Format.rdfa] false
        ⟨∅, {"urn:bad"}, [("urn:good", [])]⟩ docGood res (by decide) hres

/-- C9: neither retrieve_ontologies nor retrieve_crawl_paths ever mutates the
caller's input graph: in the store-level embedding, the triples of every
graph object allocated before the call read the same after it, for every
error policy, merge policy, flag combination and outcome (results are built
only by unioning into freshly allocated objects; the only written object is
the fresh entity graph). -/
theorem c9_no_input_mutation :
    (∀ (web : Web) (error : Option String) (inplace : Bool) (fuel : Nat)
        (h : Heap) (gid i : Nat), i < h.length →
      Heap.read ((retrieve_ontologies_h web error inplace fuel h gid).1) i =
        Heap.read h i) ∧
    (∀ (web : Web) (fuel : Nat) (h : Heap) (gid : Nat) (seed_query : SeedQuery)
        (properties : List URI) (expand_ontologies inplace : Bool)
        (params : ExtractParams) (i : Nat), i < h.length →
      Heap.read ((retrieve_crawl_paths_h web fuel h gid seed_query properties
        expand_ontologies inplace params).1) i = Heap.read h i) := by
  constructor
  · intro web error inplace fuel h gid i hi
    obtain ⟨l, hl⟩ := retrieve_ontologies_h_frame web error inplace fuel h gid
    rw [hl]
    exact Heap.read_append h l i hi
  · intro web fuel h gid sq properties exp inp params i hi
    exact retrieve_crawl_paths_h_read web fuel h gid sq properties exp inp params i hi

/-- C9 witness: the frame property at a concrete one-object store. -/
theorem c9_witness :
    Heap.read ((retrieve_ontologies_h [] none true 10 [oneEdgeGraph] 0).1) 0 =
      Heap.read [oneEdgeGraph] 0 ∧
    Heap.read ((retrieve_crawl_paths_h [] 10 [oneEdgeGraph] 0 oneVarQuery [] false true
      defaultExtractParams).1) 0 = Heap.read [oneEdgeGraph] 0 := by
  exact ⟨c9_no_input_mutation.1 [] none true 10 [oneEdgeGraph] 0 0 (by decide),
    c9_no_input_mutation.2 [] 10 [oneEdgeGraph] 0 oneVarQuery [] false true
      defaultExtractParams 0 (by decide)⟩

/-- C10: an import target is added to the visited set before any parse of it
is attempted: every attempted target lies in the final seen set even when all
formats failed for it, no target is attempted twice within one resolution,
and under the ignore policy a failed target that a later-parsed document
re-imports is skipped — concretely urn:bad is referenced by both the root
graph and the later-parsed urn:good but appears once in the attempt log and
is in the final seen set. -/
theorem c10_visited_before_parse :
    (∀ (web : Web) (error : Option String) (g : Graph) (fuel : Nat)
        (res : ResolveResult), retrieve_ontologies_full web g error fuel = some res →
      (∀ u ∈ res.state.attempts.map Prod.fst, u ∈ res.state.seen) ∧
      (res.state.attempts.map Prod.fst).Nodup) ∧
    ((retrieve_ontologies_full badGoodWeb rootBadGood (some "ignore") 10).map
        (fun r => r.isOk) = some true) ∧
    ((retrieve_ontologies_full badGoodWeb rootBadGood (some "ignore") 10).map
        (fun r => decide ("urn:bad" ∈ r.state.seen)) = some true) ∧
    ((retrieve_ontologies_full badGoodWeb rootBadGood (some "ignore") 10).map
        (fun r => r.state.attempts.map Prod.fst) = some ["urn:bad", "urn:good"]) := by
  refine ⟨?_, by decide, by decide, by decide⟩
  intro web error g fuel res h
  have hI := ((resolver_inv web error fuel).1 (importsOf g) ⟨∅, ∅, []⟩ res h).2.2
    ⟨List.nodup_nil, fun u hu => absurd hu (List.not_mem_nil u),
      fun e he => absurd he (List.not_mem_nil e)⟩
  exact ⟨fun u hu => hI.2.1 u hu, hI.1⟩

/-- C10 witness: the visited-before-parse facts at the concrete run where a
failed target is re-imported. -/
theorem c10_witness :
    match retrieve_ontologies_full badGoodWeb rootBadGood (some "ignore") 10 with
    | some res => (∀ u ∈ res.state.attempts.map Prod.fst, u ∈ res.state.seen) ∧
        (res.state.attempts.map Prod.fst).Nodup
    | none => False := by
  rcases hres : retrieve_ontologies_full badGoodWeb rootBadGood (some "ignore") 10 with _ | res
  · have hs : (retrieve_ontologies_full badGoodWeb rootBadGood (some "ignore") 10).isSome := by
      decide
    rw [hres] at hs
    simp at hs
  · exact c10_visited_before_parse.1 badGoodWeb (some "ignore") rootBadGood 10 res hres

end OntologyCrawler
